import Mathlib

/-!
Shallow embedding of the lazy 5D image-access layer of the repository:
the Imaris reader (`impy/imaris_reader.py`), the disk- and memory-backed
5D proxies and `normalize_to_5d` (`pyvistra/io.py`), and the transposed
view proxy (`pyvistra/ortho.py`).

Numpy arrays are modelled as a shape (a list of axis lengths) together
with a total data function from index lists to values; indexing,
stacking and transposition are modelled on this representation with
numpy basic-indexing semantics, returning `Option` where numpy would
raise.
-/

/-- Model of a numpy ndarray: a shape together with a total data
function.  Entries of `data` at index lists that are not valid for
`shape` are junk and never compared. -/
structure NDArray (α : Type) where
  shape : List Nat
  data : List Nat → α

/-- An index list is valid for a shape when it has the same length and
is pointwise strictly below the axis lengths. -/
def ValidIx (ix sh : List Nat) : Prop := List.Forall₂ (fun i n => i < n) ix sh

/-- Two modelled arrays are equivalent when they have the same shape and
the same entries at every valid index. -/
def NDArray.Equiv (a b : NDArray α) : Prop :=
  a.shape = b.shape ∧ ∀ ix, ValidIx ix a.shape → a.data ix = b.data ix

/-- Equivalence of optional arrays: both absent, or both present and
equivalent. -/
def OptEquiv : Option (NDArray α) → Option (NDArray α) → Prop
  | some a, some b => a.Equiv b
  | none, none => True
  | _, _ => False

/-- Model of a Python slice object: optional start, stop and step. -/
structure Slice where
  start : Option Int
  stop : Option Int
  step : Option Int
deriving DecidableEq, Repr

/-- Python slice with all fields defaulted, `slice(None)`. -/
def Slice.all : Slice := ⟨none, none, none⟩

/-- Effective step of a slice (`None` defaults to 1). -/
def Slice.stepVal (s : Slice) : Int := s.step.getD 1

/-- Model of `slice.indices(n)`: clamp start/stop to the axis length
with CPython semantics, returning `(start, stop, step)`. -/
def Slice.indices (s : Slice) (n : Nat) : Int × Int × Int :=
  let step := s.stepVal
  let lower : Int := if step < 0 then -1 else 0
  let upper : Int := if step < 0 then (n : Int) - 1 else (n : Int)
  let start :=
    match s.start with
    | none => if step < 0 then upper else lower
    | some v => if v < 0 then max (v + n) lower else min v upper
  let stop :=
    match s.stop with
    | none => if step < 0 then lower else upper
    | some v => if v < 0 then max (v + n) lower else min v upper
  (start, stop, step)

/-- Number of elements of Python `range(start, stop, step)`. -/
def rangeCount (start stop step : Int) : Nat :=
  if 0 < step then ((stop - start).toNat + (step.toNat - 1)) / step.toNat
  else if step < 0 then ((start - stop).toNat + ((-step).toNat - 1)) / (-step).toNat
  else 0

/-- Elements of Python `range(start, stop, step)`. -/
def rangeList (start stop step : Int) : List Int :=
  (List.range (rangeCount start stop step)).map (fun (i : Nat) => start + (i : Int) * step)

/-- Indices an axis of length `n` selected by a slice, as naturals
(slices clamped by `Slice.indices` only select indices in `[0, n)`). -/
def Slice.select (s : Slice) (n : Nat) : List Nat :=
  let (start, stop, step) := s.indices n
  (rangeList start stop step).map Int.toNat

/-- One basic-indexing selector: a single (possibly negative) integer
or a slice. -/
inductive Sel where
  | idx (i : Int)
  | slice (s : Slice)
deriving DecidableEq, Repr

/-- Full-range selector `slice(None)`. -/
def Sel.all : Sel := .slice Slice.all

/-- Normalization of a single integer index against an axis length,
with numpy semantics: negative indices count from the end, out-of-range
indices are an error (`none`). -/
def normIdx (i : Int) (n : Nat) : Option Nat :=
  if 0 ≤ i then (if i < n then some i.toNat else none)
  else (if 0 ≤ i + n then some (i + n).toNat else none)

/-- Validity of one selector against one axis length: integer indices
must be in range, slices must have nonzero step. -/
def selOK (sel : Sel) (n : Nat) : Bool :=
  match sel with
  | .idx i => (normIdx i n).isSome
  | .slice s => decide (s.stepVal ≠ 0)

/-- Validity of a full basic-indexing key against a shape: one selector
per axis, each valid. -/
def npKeyOK : List Sel → List Nat → Bool
  | [], [] => true
  | sel :: ks, n :: ns => selOK sel n && npKeyOK ks ns
  | _, _ => false

/-- Shape of the result of basic indexing: integer selectors collapse
their axis, slice selectors contribute the number of selected indices. -/
def keyShape : List Sel → List Nat → List Nat
  | .idx _ :: ks, _ :: ns => keyShape ks ns
  | .slice s :: ks, n :: ns => (s.select n).length :: keyShape ks ns
  | _, _ => []

/-- Map an index into the result of basic indexing back to an index
into the source array. -/
def keyMap : List Sel → List Nat → List Nat → List Nat
  | .idx i :: ks, n :: ns, ix => (normIdx i n).getD 0 :: keyMap ks ns ix
  | .slice s :: ks, n :: ns, ix =>
      (s.select n).getD (ix.headD 0) 0 :: keyMap ks ns ix.tail
  | _, _, _ => []

/-- Numpy basic indexing `a[key]` with a key of exactly one selector
per axis; `none` where numpy raises (wrong key length, integer index
out of range, slice step 0). -/
def npIndex (a : NDArray α) (key : List Sel) : Option (NDArray α) :=
  if npKeyOK key a.shape then
    some ⟨keyShape key a.shape, fun ix => a.data (keyMap key a.shape ix)⟩
  else none

/-- Shape of the first element of a list of arrays (shape of `np.array`
elements; empty list gives the empty tail shape of `np.array([])`). -/
def headShape : List (NDArray α) → List Nat
  | [] => []
  | a :: _ => a.shape

/-- Model of `np.array(list_of_arrays)`: stacks equal-shaped arrays
along a new leading axis; `none` on ragged input. -/
def stackList [Inhabited α] (l : List (NDArray α)) : Option (NDArray α) :=
  if l.all (fun a => decide (a.shape = headShape l)) then
    some ⟨l.length :: headShape l, fun ix =>
      match ix with
      | [] => default
      | i :: rest =>
        match l.get? i with
        | some a => a.data rest
        | none => default⟩
  else none

/-- Unchecked transpose of an array by a list of axes
(`np.transpose(a, axes)` data model). -/
def transposeArr (a : NDArray α) (axes : List Nat) : NDArray α :=
  ⟨axes.map (fun p => a.shape.getD p 0),
   fun ix => a.data ((List.range a.shape.length).map
     (fun i => ix.getD (List.indexOf i axes) 0))⟩

/-- Model of `np.transpose(a, axes)`: `none` unless `axes` is a
permutation of the array axes. -/
def npTranspose (a : NDArray α) (axes : List Nat) : Option (NDArray α) :=
  if axes.length = a.shape.length ∧ (List.range a.shape.length).all (· ∈ axes) then
    some (transposeArr a axes)
  else none

/-- Array of a given shape whose entries are all the default value
(models both `np.zeros` and `np.empty`, whose entries on the
zero-length axes used here are never observed). -/
def filledArr (α : Type) [Inhabited α] (shape : List Nat) : NDArray α :=
  ⟨shape, fun _ => default⟩

/-!
Model of `ImarisReader` (`impy/imaris_reader.py`).  The reader is
abstracted by its discovered geometry and the pixel content of the
level-0 datasets; `read` reproduces `ImarisReader.read` (group lookup
by index, one plane for an integer z, the full stack for `z = None`).
The discovered shape is taken to agree with the dataset shape, which is
what `_scan_structure` guarantees when the size attributes are absent.
-/

/-- Geometry and pixel content of an opened Imaris file, as discovered
by `ImarisReader._scan_structure`: shape `(T, C, Z, Y, X)` and the
pixel value at `(t, c, z, y, x)`. -/
structure ImarisReader (α : Type) where
  nT : Nat
  nC : Nat
  nZ : Nat
  nY : Nat
  nX : Nat
  pix : Nat → Nat → Nat → Nat → Nat → α

/-- Shape attribute of the reader, `(T, C, Z, Y, X)`. -/
def ImarisReader.shape (r : ImarisReader α) : List Nat :=
  [r.nT, r.nC, r.nZ, r.nY, r.nX]

/-- Model of `ImarisReader.read(c, t, z)` at resolution level 0: the
timepoint and channel groups exist exactly for `0 ≤ t < T` and
`0 ≤ c < C` (a failed lookup raises, modelled as `none`); an integer
`z` selects one `(Y, X)` plane with `dataset[z, :, :]` semantics, and
`z = None` returns the whole `(Z, Y, X)` stack `dataset[:]`. -/
def ImarisReader.read (r : ImarisReader α) (c t : Int) (z : Option Int) :
    Option (NDArray α) :=
  if 0 ≤ t ∧ t < r.nT ∧ 0 ≤ c ∧ c < r.nC then
    let tn := t.toNat
    let cn := c.toNat
    match z with
    | some zi =>
      (normIdx zi r.nZ).map (fun zn =>
        ⟨[r.nY, r.nX], fun ix => r.pix tn cn zn (ix.getD 0 0) (ix.getD 1 0)⟩)
    | none =>
      some ⟨[r.nZ, r.nY, r.nX], fun ix =>
        r.pix tn cn (ix.getD 0 0) (ix.getD 1 0) (ix.getD 2 0)⟩
  else none

/-!
Model of the proxy index keys.  A raw key element is an integer, a
slice, or the `Ellipsis` wildcard.
-/

/-- One element of a raw proxy key. -/
inductive KeyElem where
  | idx (i : Int)
  | slice (s : Slice)
  | ellipsis
deriving DecidableEq, Repr

/-- Full-range key element `slice(None)`. -/
def KeyElem.all : KeyElem := .slice Slice.all

/-- Whether a key element is a slice (`isinstance(k, slice)`). -/
def KeyElem.isSlice : KeyElem → Bool
  | .slice _ => true
  | _ => false

/-- Conversion of a key element to a plain selector.  A leftover
wildcard (possible only in keys holding more than one wildcard, which
the source never receives from its callers) is modelled as an error. -/
def KeyElem.toSel : KeyElem → Option Sel
  | .idx i => some (.idx i)
  | .slice s => some (.slice s)
  | .ellipsis => none

/-- Expansion of the first `Ellipsis` of a key into
`5 - (len(key) - 1)` full slices, as both `Imaris5DProxy.__getitem__`
and `Numpy5DProxy.__getitem__` do. -/
def expandEllipsis (key : List KeyElem) : List KeyElem :=
  if KeyElem.ellipsis ∈ key then
    let i := List.indexOf KeyElem.ellipsis key
    key.take i ++ List.replicate (5 - (key.length - 1)) KeyElem.all
      ++ key.drop (i + 1)
  else key

/-- Right-padding of a key shorter than 5 with full slices. -/
def padKey (key : List KeyElem) : List KeyElem :=
  key ++ List.replicate (5 - key.length) KeyElem.all

/-- Key normalization of `Imaris5DProxy.__getitem__`: expand a single
wildcard, then right-pad to length 5. -/
def Imaris5DProxy.normalizeKey (key : List KeyElem) : List KeyElem :=
  padKey (expandEllipsis key)

/-- Key normalization of `Numpy5DProxy.__getitem__` (textually the
same code as the disk-backed variant). -/
def Numpy5DProxy.normalizeKey (key : List KeyElem) : List KeyElem :=
  padKey (expandEllipsis key)

/-!
Model of `Imaris5DProxy` (`pyvistra/io.py`).  The proxy presents the
reader in canonical `(T, Z, C, Y, X)` order.
-/

/-- Shape of the disk-backed proxy, `(T, Z, C, Y, X)`. -/
def Imaris5DProxy.shape (r : ImarisReader α) : List Nat :=
  [r.nT, r.nZ, r.nC, r.nY, r.nX]

/-- Model of `Imaris5DProxy._read_z_slice(c, t, z)`: for a slice,
compute `z.indices(Z)`; a full forward range (`step 1`, `start 0`,
`stop Z`) becomes one bulk `read(z=None)`; an empty selection returns
`np.zeros((0, Y, X))`; otherwise one `read` per selected plane, stacked.
An integer `z` is one plane read. -/
def Imaris5DProxy.read_z_slice [Inhabited α] (r : ImarisReader α)
    (c t : Int) (z : KeyElem) : Option (NDArray α) :=
  match z with
  | .slice s =>
    if s.stepVal = 0 then none
    else
      let p := s.indices r.nZ
      if p.2.2 = 1 ∧ p.1 = 0 ∧ p.2.1 = (r.nZ : Int) then r.read c t none
      else
        let zs := rangeList p.1 p.2.1 p.2.2
        if zs.length = 0 then some (filledArr α [0, r.nY, r.nX])
        else (zs.mapM (fun zi => r.read c t (some zi))).bind stackList
  | .idx i => r.read c t (some i)
  | .ellipsis => none

/-- Sequence of `z` arguments of the `reader.read` calls performed by
`Imaris5DProxy._read_z_slice` for given selectors: the bulk path is a
single `z=None` call, the per-plane path one call per selected plane. -/
def Imaris5DProxy.read_z_slice_calls (r : ImarisReader α) (z : KeyElem) :
    List (Option Int) :=
  match z with
  | .slice s =>
    if s.stepVal = 0 then []
    else
      let p := s.indices r.nZ
      if p.2.2 = 1 ∧ p.1 = 0 ∧ p.2.1 = (r.nZ : Int) then [none]
      else (rangeList p.1 p.2.1 p.2.2).map some
  | .idx i => [some i]
  | .ellipsis => []

/-- Model of `Imaris5DProxy._read_timepoint(t, z, c)`: a channel slice
reads each selected channel, stacks them into `(C, ...)` and, when the
stack is 4-dimensional, transposes it to `(Z, C, Y, X)`; an integer
channel delegates directly. -/
def Imaris5DProxy.read_timepoint [Inhabited α] (r : ImarisReader α)
    (t : Int) (z c : KeyElem) : Option (NDArray α) :=
  match c with
  | .slice s =>
    if s.stepVal = 0 then none
    else
      let p := s.indices r.nC
      let cs := rangeList p.1 p.2.1 p.2.2
      ((cs.mapM (fun ci => Imaris5DProxy.read_z_slice r ci t z)).bind
        stackList).bind (fun stack =>
          if stack.shape.length = 4 then npTranspose stack [1, 0, 2, 3]
          else some stack)
  | .idx i => Imaris5DProxy.read_z_slice r i t z
  | .ellipsis => none

/-- Model of `Imaris5DProxy.__getitem__`: normalize the key, then
resolve Time (a slice stacks per-timepoint reads, an empty Time range
short-circuits to `np.empty((0,) + shape[1:])`), and finally apply the
Y/X selectors to the last two axes via `data[..., y_idx, x_idx]`. -/
def Imaris5DProxy.getItem [Inhabited α] (r : ImarisReader α)
    (key0 : List KeyElem) : Option (NDArray α) :=
  let key := Imaris5DProxy.normalizeKey key0
  match key with
  | [kt, kz, kc, ky, kx] =>
    (ky.toSel.bind fun ySel => kx.toSel.map fun xSel => (ySel, xSel)).bind
      fun yx =>
        match kt with
        | .slice s =>
          if s.stepVal = 0 then none
          else
            let p := s.indices r.nT
            let ts := rangeList p.1 p.2.1 p.2.2
            if ts.length = 0 then
              some (filledArr α [0, r.nZ, r.nC, r.nY, r.nX])
            else
              ((ts.mapM (fun ti =>
                  Imaris5DProxy.read_timepoint r ti kz kc)).bind
                stackList).bind (fun d =>
                  npIndex d (List.replicate (d.shape.length - 2) Sel.all
                    ++ [yx.1, yx.2]))
        | .idx i =>
          (Imaris5DProxy.read_timepoint r i kz kc).bind (fun d =>
            npIndex d (List.replicate (d.shape.length - 2) Sel.all
              ++ [yx.1, yx.2]))
        | .ellipsis => none
  | _ => none

/-!
Model of `Numpy5DProxy` (`pyvistra/io.py`): normalize the key, then
index the wrapped buffer directly.
-/

/-- Model of `Numpy5DProxy.__getitem__`. -/
def Numpy5DProxy.getItem (a : NDArray α) (key0 : List KeyElem) :
    Option (NDArray α) :=
  let key := Numpy5DProxy.normalizeKey key0
  (key.mapM KeyElem.toSel).bind (npIndex a)

/-!
Model of `TransposedProxy` (`pyvistra/ortho.py`).  The wrapped proxy is
abstracted by its raw index operation so the model covers any wrapped
5D proxy.
-/

/-- Shape of the transposed view: the wrapped shape permuted. -/
def TransposedProxy.shape (sh : List Nat) (perm : List Nat) : List Nat :=
  perm.map (fun p => sh.getD p 0)

/-- Key mapping of `TransposedProxy.__getitem__` steps 0-1: right-pad
the key to 5, then scatter it into canonical positions with
`original_key[perm[i]] = key[i]` over a default of full slices.  Each
element (wildcard included) is moved as-is; no wildcard expansion. -/
def TransposedProxy.mapKey (perm : List Nat) (key0 : List KeyElem) :
    List KeyElem :=
  let key := padKey key0
  (perm.zip key).foldl (fun acc pk => acc.set pk.1 pk.2)
    (List.replicate 5 KeyElem.all)

/-- Canonical axes of the surviving (slice-selected) view axes, in view
order: `target_dims` of `TransposedProxy.__getitem__`; `none` when a
kept view axis falls outside the permutation (`self.perm[i]` raises). -/
def TransposedProxy.targetDims (perm : List Nat) (key : List KeyElem) :
    Option (List Nat) :=
  let kept := (List.range key.length).filter
    (fun i => (key.getD i KeyElem.all).isSlice)
  if kept.all (fun i => i < perm.length) then
    some (kept.map (fun i => perm.getD i 0))
  else none

/-- Result permutation of `TransposedProxy.__getitem__` step 3: sort
the surviving canonical axes, then send each to its sorted position.
The position map models the `dim_to_pos` dictionary; on the duplicate-
free `target_dims` produced by a genuine permutation the first and last
occurrence agree. -/
def TransposedProxy.resPerm (targetDims : List Nat) : List Nat :=
  let present := List.insertionSort (fun a b => a ≤ b) targetDims
  targetDims.map (fun d => List.indexOf d present)

/-- Model of `TransposedProxy.__getitem__` over a wrapped proxy with
raw index operation `get`: map the key to canonical order, delegate,
then transpose the result unless the computed permutation is already
the identity. -/
def TransposedProxy.getItem (get : List KeyElem → Option (NDArray α))
    (perm : List Nat) (key0 : List KeyElem) : Option (NDArray α) :=
  let key := padKey key0
  (get (TransposedProxy.mapKey perm key0)).bind fun res =>
    (TransposedProxy.targetDims perm key).bind fun tD =>
      let rp := TransposedProxy.resPerm tD
      if rp ≠ List.range rp.length then npTranspose res rp else some res

/-!
Model of the attribute layer of `ImarisReader`
(`_decode_imaris_attribute`, `_get_val`) and of the metadata
derivation (`_parse_metadata`): voxel scale, timestamps, and the
numeric-aware group-name sort of `_scan_structure`.
-/

/-- Raw HDF5 attribute value as stored by Imaris: a scalar string (or
byte string, already decoded), an array of single-character byte/string
elements, an array of integer character codes, or an array of other
numbers. -/
inductive RawAttr where
  | strScalar (s : String)
  | charArr (cs : List String)
  | intArr (codes : List Nat)
  | numArr (xs : List ℚ)
deriving DecidableEq

/-- Model of `ImarisReader._decode_imaris_attribute`: scalars pass
through, character arrays concatenate, integer arrays are read as
character codes, other numeric arrays stringify their first element,
and empty arrays decode to the empty string. -/
def ImarisReader.decode_imaris_attribute : RawAttr → String
  | .strScalar s => s
  | .charArr cs => String.join cs
  | .intArr codes => String.mk (codes.map Char.ofNat)
  | .numArr [] => ""
  | .numArr (x :: _) => toString x

/-- Result of `ImarisReader._get_val`: `none` (Python `None`), a value
of the requested type, or the decoded string when the cast failed. -/
inductive AttrVal (β : Type) where
  | null
  | val (b : β)
  | str (s : String)
deriving DecidableEq

/-- Model of `ImarisReader._get_val(grp, key, type_func)`.  The group
is a partial map from attribute names to raw values (`None` when the
group itself is absent); `cast` models `type_func` on the decoded
string (`none` models a raising cast).  Absent keys and empty decoded
strings give `None`; a failed cast returns the decoded string. -/
def ImarisReader.get_val (grp : Option (String → Option RawAttr))
    (key : String) (cast : String → Option β) : AttrVal β :=
  match grp with
  | none => .null
  | some attrs =>
    match attrs key with
    | none => .null
    | some raw =>
      let str_val := ImarisReader.decode_imaris_attribute raw
      if str_val = "" then .null
      else
        match cast str_val with
        | some b => .val b
        | none => .str str_val

/-- Model of Python `float()` on the decimal strings stored by Imaris:
optional sign, a nonempty digit run, an optional fractional part.
Strings with unit suffixes or other stray characters fail (`none`),
like `float("600 nm")` raising `ValueError`.  Exact rational arithmetic
stands in for IEEE doubles; the extents exercised below are all exactly
representable. -/
def pyFloat (s : String) : Option ℚ :=
  let chars := s.data
  let core := match chars with
    | c :: rest => if c = '-' ∨ c = '+' then some (c == '-', rest)
                   else some (false, chars)
    | [] => none
  core.bind fun sc =>
    let intPart := sc.2.takeWhile Char.isDigit
    let rest := sc.2.dropWhile Char.isDigit
    if intPart = [] then none
    else
      let whole : ℚ := (intPart.foldl (fun n c => 10 * n + (c.toNat - 48)) 0 : Nat)
      match rest with
      | [] => some (if sc.1 then -whole else whole)
      | '.' :: fracs =>
        if fracs ≠ [] ∧ fracs.all Char.isDigit then
          let num : ℚ := (fracs.foldl (fun n c => 10 * n + (c.toNat - 48)) 0 : Nat)
          let v := whole + num / ((10 : ℚ) ^ fracs.length)
          some (if sc.1 then -v else v)
        else none
      | _ => none

/-- Model of the local `ensure_float` helper of
`ImarisReader._parse_metadata`: numeric values pass through, `None` and
strings that still fail `float()` fall back to the given default. -/
def ensure_float (v : AttrVal ℚ) (dflt : ℚ) : ℚ :=
  match v with
  | .val q => q
  | .null => dflt
  | .str s => (pyFloat s).getD dflt

/-- Voxel scale of one axis as computed by
`ImarisReader._parse_metadata`: resolve the extent attributes with
defaults 0 and 1, then `(max - min) / size` when `size > 0`, else 1. -/
def ImarisReader.voxAxis (img : Option (String → Option RawAttr))
    (minKey maxKey : String) (size : Nat) : ℚ :=
  let mn := ensure_float (ImarisReader.get_val img minKey pyFloat) 0
  let mx := ensure_float (ImarisReader.get_val img maxKey pyFloat) 1
  if size > 0 then (mx - mn) / (size : ℚ) else 1

/-- Value of the first run of digits of a name, `none` when the name
holds no digit (model of `re.search(r"\d+", name)` plus `int`). -/
def firstDigitRun (s : String) : Option Nat :=
  let rest := s.data.dropWhile (fun c => ¬ c.isDigit)
  match rest with
  | [] => none
  | _ => some ((rest.takeWhile Char.isDigit).foldl
      (fun n c => 10 * n + (c.toNat - 48)) 0)

/-- Numeric sort key used by `ImarisReader._scan_structure` for
timepoint and channel group names: the first digit run, or 0 when the
name holds no digits. -/
def numericKey (s : String) : Nat := (firstDigitRun s).getD 0

/-- Numeric-aware stable sort of group names, as `sorted(names, key=...)`
in `ImarisReader._scan_structure`. -/
def sortByNumericKey (names : List String) : List String :=
  List.insertionSort (fun a b => numericKey a ≤ numericKey b) names

/-- Timestamp string parse result; the embedding only tracks which
format succeeded and on which string, the calendar value itself being
irrelevant to the claims. -/
structure ParsedTime where
  text : String
  withFraction : Bool
deriving DecidableEq

/-- Model of the timestamp loop of `ImarisReader._parse_metadata`,
parameterized by `strptime fmtHasFraction strippedText`, a model of
`datetime.strptime` with the two formats used by the source.  With no
`TimeInfo` group the loop body never runs and the list stays empty;
otherwise each time index probes the two key spellings, then the two
formats, and appends `none` on any failure. -/
def ImarisReader.parseTimestamps (strptime : Bool → String → Option ParsedTime)
    (timeInfo : Option (String → Option RawAttr)) (nT : Nat) :
    List (Option ParsedTime) :=
  match timeInfo with
  | none => []
  | some g =>
    (List.range nT).map (fun i =>
      let v1 := ImarisReader.get_val (some g)
        ("TimePoint" ++ toString (i + 1)) (fun s => some s)
      let v2 := ImarisReader.get_val (some g)
        ("TimePoint " ++ toString (i + 1)) (fun s => some s)
      let ts_str := match v1 with
        | .val s => some s
        | .str s => some s
        | .null => match v2 with
          | .val s => some s
          | .str s => some s
          | .null => none
      match ts_str with
      | none => none
      | some ts =>
        match strptime true ts.trim with
        | some dt => some dt
        | none => strptime false ts.trim)

/-!
Model of `normalize_to_5d` (`pyvistra/io.py`).
-/

/-- Row-major flat offset of an index in a shape. -/
def flatIndex (sh ix : List Nat) : Nat :=
  ((sh.zip ix).foldl (fun acc p => acc * p.1 + p.2) 0)

/-- Inverse of `flatIndex`: row-major index of a flat offset. -/
def unflatten (sh : List Nat) (f : Nat) : List Nat :=
  (sh.foldr (fun n st => (st.1 / n, (st.1 % n) :: st.2)) ((f, []) : Nat × List Nat)).2

/-- Model of `np.reshape`: same element order, new shape; `none` when
the total sizes differ (numpy raises). -/
def npReshape (a : NDArray α) (sh2 : List Nat) : Option (NDArray α) :=
  if sh2.prod = a.shape.prod then
    some ⟨sh2, fun ix => a.data (unflatten a.shape (flatIndex sh2 ix))⟩
  else none

/-- Model of `normalize_to_5d(data, dims, rgb)`.  With an explicit
`dims` string: lower-case it, fail when its length differs from the
rank, else permute the present axes into canonical order and reshape
with size-1 axes for the absent labels.  Without `dims`: rank-based
heuristics for ranks 2 to 5; any other rank falls through every branch
and the input is returned unchanged (the source has no else-branch).
Numpy errors reached through a degenerate `dims` string surface as
`error` values. -/
def normalize_to_5d (a : NDArray α) (dims : Option String) (rgb : Bool) :
    Except String (NDArray α) :=
  match dims with
  | some ds0 =>
    let ds := ds0.data.map Char.toLower
    if ds.length ≠ a.shape.length then
      .error ("dims string length (" ++ toString ds.length
        ++ ") must match data ndim (" ++ toString a.shape.length ++ ")")
    else
      let target_order := ['t', 'z', 'c', 'y', 'x']
      let present_dims := target_order.filter (fun d => d ∈ ds)
      let perm := present_dims.map (fun d => List.indexOf d ds)
      match npTranspose a perm with
      | none => .error "axes dont match array"
      | some timg =>
        let target_shape := target_order.map (fun ch =>
          if ch ∈ ds then a.shape.getD (List.indexOf ch ds) 0 else 1)
        match npReshape timg target_shape with
        | none => .error "cannot reshape array"
        | some out => .ok out
  | none =>
    let nd := a.shape.length
    if nd = 2 then
      .ok ⟨[1, 1, 1] ++ a.shape, fun ix => a.data (ix.drop 3)⟩
    else if nd = 3 then
      if rgb then
        .ok ⟨[1, 1, a.shape.getD 2 0, a.shape.getD 0 0, a.shape.getD 1 0],
             fun ix => a.data [ix.getD 3 0, ix.getD 4 0, ix.getD 2 0]⟩
      else
        .ok ⟨[1, a.shape.getD 0 0, 1, a.shape.getD 1 0, a.shape.getD 2 0],
             fun ix => a.data [ix.getD 1 0, ix.getD 3 0, ix.getD 4 0]⟩
    else if nd = 4 then
      .ok ⟨1 :: a.shape, fun ix => a.data (ix.drop 1)⟩
    else if nd = 5 then .ok a
    else .ok a

/-!
Basic facts about ranges, slices, stacking and reads used by the claim
theorems.
-/

/-!
Further definitions used by the claim theorems: selector helpers, a
specification model of the permuted view (from the section of the
specification on PermutedProxy), and concrete fixtures for witnesses.
-/

/-- Whether a selector is a range selector. -/
def Sel.isSlice : Sel -> Bool
  | .slice _ => true
  | .idx _ => false

/-- Embedding of plain selectors into raw key elements. -/
def Sel.toKeyElem : Sel -> KeyElem
  | .idx i => .idx i
  | .slice s => .slice s

/-- Total conversion of a key element to a selector; the wildcard maps
to a junk full slice and is only applied to wildcard-free keys. -/
def KeyElem.toSelD : KeyElem -> Sel
  | .idx i => .idx i
  | .slice s => .slice s
  | .ellipsis => Sel.all

/-- Right-padding of a selector key to length 5 with full slices. -/
def padSel (key : List Sel) : List Sel :=
  key ++ List.replicate (5 - key.length) Sel.all

/-- Number of range selectors among the first `i` selectors of a key. -/
def slicesBefore (key : List Sel) (i : Nat) : Nat :=
  ((key.take i).filter Sel.isSlice).length

/-- View axes of a padded key that survive indexing (range selectors),
in view order. -/
def keptView (key : List Sel) : List Nat :=
  (List.range 5).filter (fun i => (key.getD i Sel.all).isSlice)

/-- Modelled from the specification of PermutedProxy: the result of
indexing a permuted view with a padded key.  Its axes are the surviving
view axes in the view order; entry `j` holds the wrapped-array entry
whose canonical coordinate on axis `d` is the integer selector of the
view axis showing `d`, or the selected index of that view axis at the
position of `j` belonging to it. -/
def transposedViewSpec (a : NDArray α) (perm : List Nat) (key : List Sel) :
    NDArray α :=
  ⟨(keptView key).map (fun i =>
      match key.getD i Sel.all with
      | .slice s => (s.select (a.shape.getD (perm.getD i 0) 0)).length
      | .idx _ => 0),
   fun j => a.data ((List.range 5).map (fun d =>
      match key.getD (List.indexOf d perm) Sel.all with
      | .idx v => (normIdx v (a.shape.getD d 0)).getD 0
      | .slice s => (s.select (a.shape.getD d 0)).getD
          (j.getD (slicesBefore key (List.indexOf d perm)) 0) 0))⟩

/-- Fixture: a concrete reader with shape `(T, C, Z, Y, X) = (2, 2, 3, 4, 5)`
and injectively-coded pixel values. -/
def witnessReader : ImarisReader Nat :=
  ⟨2, 2, 3, 4, 5, fun t c z y x => t * 100000 + c * 10000 + z * 1000 + y * 100 + x⟩

/-- Fixture: a concrete 5D buffer of shape `(2, 3, 4, 5, 6)` with
injectively-coded entries. -/
def witnessArr : NDArray Nat :=
  ⟨[2, 3, 4, 5, 6], fun ix => ix.foldl (fun acc i => acc * 10 + i) 9⟩


theorem Slice.indices_step (s : Slice) (n : Nat) : (s.indices n).2.2 = s.stepVal := rfl

theorem Slice.stepVal_of_full {s : Slice} {n : Nat}
    (h : s.indices n = (0, (n : Int), 1)) : s.stepVal = 1 := by
  have := Slice.indices_step s n
  rw [h] at this
  exact this.symm

theorem rangeCount_zero_nat_one (n : Nat) : rangeCount 0 n 1 = n := by
  simp [rangeCount]

theorem rangeList_zero_nat_one (n : Nat) :
    rangeList 0 n 1 = (List.range n).map (fun k : Nat => (k : Int)) := by
  rw [rangeList, rangeCount_zero_nat_one]
  exact List.map_congr_left (fun x _ => by simp)

theorem Slice.select_of_full {s : Slice} {n : Nat}
    (h : s.indices n = (0, (n : Int), 1)) : s.select n = List.range n := by
  simp only [Slice.select, h, rangeList_zero_nat_one, List.map_map]
  exact List.map_congr_left (fun x _ => Int.toNat_natCast x) |>.trans (List.map_id _)

theorem Slice.all_indices (n : Nat) : Slice.all.indices n = (0, (n : Int), 1) := by
  simp [Slice.all, Slice.indices, Slice.stepVal]

theorem Slice.all_select (n : Nat) : Slice.all.select n = List.range n :=
  Slice.select_of_full (Slice.all_indices n)

theorem mapM_some {β γ : Type} {f : β → Option γ} {g : β → γ} :
    ∀ {l : List β}, (∀ x ∈ l, f x = some (g x)) → l.mapM f = some (l.map g) := by
  intro l
  induction l with
  | nil => intro _; rfl
  | cons x xs ih =>
    intro h
    rw [List.map_cons, List.mapM_cons, h x (List.mem_cons_self x xs),
      ih (fun y hy => h y (List.mem_cons_of_mem x hy))]
    rfl

theorem stackList_spec {α : Type} [Inhabited α] {l : List (NDArray α)} {sh : List Nat}
    (hne : l ≠ []) (h : ∀ a ∈ l, a.shape = sh) :
    ∃ b, stackList l = some b ∧ b.shape = l.length :: sh ∧
      ∀ i rest, b.data (i :: rest) =
        ((l.get? i).map (fun a => a.data rest)).getD default := by
  have hhead : headShape l = sh := by
    cases l with
    | nil => exact absurd rfl hne
    | cons a l => exact h a (List.mem_cons_self a l)
  have hall : l.all (fun a => decide (a.shape = headShape l)) = true := by
    rw [List.all_eq_true]
    intro a ha
    rw [decide_eq_true_iff, hhead]
    exact h a ha
  refine ⟨_, by rw [stackList, if_pos hall], by rw [hhead], ?_⟩
  intro i rest
  cases hg : l.get? i with
  | none => rw [List.get?_eq_getElem?] at hg; simp [hg]
  | some a => rw [List.get?_eq_getElem?] at hg; simp [hg]

theorem ImarisReader.read_none_eq (r : ImarisReader α) {c t : Nat}
    (hc : c < r.nC) (ht : t < r.nT) :
    r.read (c : Int) (t : Int) none =
      some ⟨[r.nZ, r.nY, r.nX],
        fun ix => r.pix t c (ix.getD 0 0) (ix.getD 1 0) (ix.getD 2 0)⟩ := by
  rw [ImarisReader.read, if_pos]
  · simp
  · exact ⟨Int.ofNat_nonneg t, by exact_mod_cast ht,
      Int.ofNat_nonneg c, by exact_mod_cast hc⟩

theorem ImarisReader.read_plane_eq (r : ImarisReader α) {c t z : Nat}
    (hc : c < r.nC) (ht : t < r.nT) (hz : z < r.nZ) :
    r.read (c : Int) (t : Int) (some (z : Int)) =
      some ⟨[r.nY, r.nX],
        fun ix => r.pix t c z (ix.getD 0 0) (ix.getD 1 0)⟩ := by
  rw [ImarisReader.read, if_pos]
  · have : normIdx (z : Int) r.nZ = some z := by
      rw [normIdx, if_pos (Int.ofNat_nonneg z), if_pos (by exact_mod_cast hz)]
      simp
    simp [this]
  · exact ⟨Int.ofNat_nonneg t, by exact_mod_cast ht,
      Int.ofNat_nonneg c, by exact_mod_cast hc⟩

theorem Imaris5DProxy.read_z_slice_full [Inhabited α] (r : ImarisReader α)
    {s : Slice} (h : s.indices r.nZ = (0, (r.nZ : Int), 1)) (c t : Int) :
    Imaris5DProxy.read_z_slice r c t (.slice s) = r.read c t none := by
  have h1 : s.stepVal = 1 := Slice.stepVal_of_full h
  simp [Imaris5DProxy.read_z_slice, h1, h]

theorem npTranspose_1023 (st : NDArray α) (h4 : st.shape.length = 4) :
    npTranspose st [1, 0, 2, 3] = some (transposeArr st [1, 0, 2, 3]) := by
  rw [npTranspose, if_pos]
  refine ⟨by rw [h4]; rfl, ?_⟩
  rw [h4]
  decide

theorem Imaris5DProxy.read_timepoint_full_shape [Inhabited α] (r : ImarisReader α)
    {s1 s2 : Slice} (hz : s1.indices r.nZ = (0, (r.nZ : Int), 1))
    (hc2 : s2.indices r.nC = (0, (r.nC : Int), 1)) (hC : 0 < r.nC)
    {t : Nat} (ht : t < r.nT) :
    ∃ b, Imaris5DProxy.read_timepoint r (t : Int) (.slice s1) (.slice s2) = some b ∧
      b.shape = [r.nZ, r.nC, r.nY, r.nX] := by
  have h2 : s2.stepVal = 1 := Slice.stepVal_of_full hc2
  have hmap : ∀ ci ∈ rangeList 0 (r.nC : Int) 1,
      Imaris5DProxy.read_z_slice r ci (t : Int) (.slice s1) =
        some ⟨[r.nZ, r.nY, r.nX],
          fun ix => r.pix t ci.toNat (ix.getD 0 0) (ix.getD 1 0) (ix.getD 2 0)⟩ := by
    intro ci hci
    rw [rangeList_zero_nat_one] at hci
    obtain ⟨k, hk, rfl⟩ := List.mem_map.mp hci
    rw [List.mem_range] at hk
    rw [Imaris5DProxy.read_z_slice_full r hz,
      ImarisReader.read_none_eq r hk ht]
    simp
  obtain ⟨st, hst, hsh, _⟩ := @stackList_spec α _
    ((rangeList 0 (r.nC : Int) 1).map
      (fun ci => ⟨[r.nZ, r.nY, r.nX],
        fun ix => r.pix t ci.toNat (ix.getD 0 0) (ix.getD 1 0) (ix.getD 2 0)⟩))
    [r.nZ, r.nY, r.nX]
    (by
      intro hemp
      rw [List.map_eq_nil_iff, rangeList_zero_nat_one, List.map_eq_nil_iff,
        List.range_eq_nil] at hemp
      omega)
    (by
      intro a ha
      obtain ⟨ci, _, rfl⟩ := List.mem_map.mp ha
      rfl)
  have hlen : ((rangeList 0 (r.nC : Int) 1).map
      (fun ci => (⟨[r.nZ, r.nY, r.nX],
        fun ix => r.pix t ci.toNat (ix.getD 0 0) (ix.getD 1 0) (ix.getD 2 0)⟩ :
          NDArray α))).length = r.nC := by
    rw [List.length_map, rangeList_zero_nat_one, List.length_map, List.length_range]
  rw [hlen] at hsh
  have hst4 : st.shape.length = 4 := by rw [hsh]; rfl
  refine ⟨transposeArr st [1, 0, 2, 3], ?_, ?_⟩
  · rw [Imaris5DProxy.read_timepoint]
    have hstep : ¬ s2.stepVal = 0 := by rw [h2]; norm_num
    simp only [hc2, if_neg hstep, mapM_some hmap, Option.bind_eq_bind,
      Option.some_bind, hst, hst4, if_pos rfl, npTranspose_1023 st hst4]
    simp
  · show ([1, 0, 2, 3].map (fun p => st.shape.getD p 0)) = _
    rw [hsh]
    rfl

theorem Imaris5DProxy.normalizeKey_of_five {key : List KeyElem}
    (h5 : key.length = 5) (he : KeyElem.ellipsis ∉ key) :
    Imaris5DProxy.normalizeKey key = key := by
  rw [Imaris5DProxy.normalizeKey, expandEllipsis, if_neg he, padKey, h5]
  simp

theorem Numpy5DProxy.normalizeKey_keeps_five {key : List KeyElem}
    (h5 : key.length = 5) (he : KeyElem.ellipsis ∉ key) :
    Numpy5DProxy.normalizeKey key = key :=
  Imaris5DProxy.normalizeKey_of_five h5 he

theorem mapM_some_shape {α β : Type} {f : β → Option (NDArray α)} {sh : List Nat} :
    ∀ {l : List β}, (∀ x ∈ l, ∃ b, f x = some b ∧ b.shape = sh) →
      ∃ out, l.mapM f = some out ∧ out.length = l.length ∧ ∀ b ∈ out, b.shape = sh := by
  intro l
  induction l with
  | nil => intro _; exact ⟨[], rfl, rfl, by simp⟩
  | cons x xs ih =>
    intro h
    obtain ⟨b, hb, hbs⟩ := h x (List.mem_cons_self x xs)
    obtain ⟨out, hout, hlen, hsh⟩ := ih (fun y hy => h y (List.mem_cons_of_mem x hy))
    refine ⟨b :: out, ?_, by simp [hlen], ?_⟩
    · rw [List.mapM_cons, hb, hout]; rfl
    · intro c hc
      rcases List.mem_cons.mp hc with rfl | hc
      · exact hbs
      · exact hsh c hc

theorem Slice.all_stepVal : Slice.all.stepVal = 1 := rfl

theorem selOK_step_one {s : Slice} (n : Nat) (h : s.stepVal = 1) :
    selOK (.slice s) n = true := by
  simp [selOK, h]

theorem selOK_all (n : Nat) : selOK Sel.all n = true :=
  selOK_step_one n Slice.all_stepVal

theorem npIndex_full5_shape {α : Type} (d : NDArray α) {a0 a1 a2 a3 a4 : Nat}
    {s3 s4 : Slice} (hd : d.shape = [a0, a1, a2, a3, a4])
    (h3 : s3.indices a3 = (0, (a3 : Int), 1))
    (h4 : s4.indices a4 = (0, (a4 : Int), 1)) :
    (npIndex d (List.replicate (d.shape.length - 2) Sel.all
        ++ [.slice s3, .slice s4])).map NDArray.shape =
      some [a0, a1, a2, a3, a4] := by
  have hv3 : s3.stepVal = 1 := Slice.stepVal_of_full h3
  have hv4 : s4.stepVal = 1 := Slice.stepVal_of_full h4
  have hrep : d.shape.length - 2 = 3 := by rw [hd]; rfl
  rw [hrep]
  have hkey : (List.replicate 3 Sel.all ++ [Sel.slice s3, Sel.slice s4]) =
      [Sel.all, Sel.all, Sel.all, Sel.slice s3, Sel.slice s4] := rfl
  rw [hkey, npIndex, if_pos]
  · rw [Option.map_some']
    congr 1
    rw [hd]
    simp only [keyShape, Sel.all, Slice.all_select, Slice.select_of_full h3,
      Slice.select_of_full h4, List.length_range]
  · rw [hd]
    simp [npKeyOK, selOK_all, selOK_step_one _ hv3, selOK_step_one _ hv4]

/-- C1: for both proxy variants, indexing with a 5-element key whose
selectors each select the full range of their axis returns data whose
shape equals the proxy shape.  The disk-backed proxy is taken with at
least one channel, an invariant `ImarisReader._scan_structure`
establishes at construction (it fails on a file with no channel
groups). -/
theorem c1_full_range_key_preserves_shape {α β : Type} [Inhabited α]
    (r : ImarisReader α) (hC : 0 < r.nC) (s0 s1 s2 s3 s4 : Slice)
    (h0 : s0.indices r.nT = (0, (r.nT : Int), 1))
    (h1 : s1.indices r.nZ = (0, (r.nZ : Int), 1))
    (h2 : s2.indices r.nC = (0, (r.nC : Int), 1))
    (h3 : s3.indices r.nY = (0, (r.nY : Int), 1))
    (h4 : s4.indices r.nX = (0, (r.nX : Int), 1))
    (b : NDArray β) (m0 m1 m2 m3 m4 : Nat) (hb : b.shape = [m0, m1, m2, m3, m4])
    (u0 u1 u2 u3 u4 : Slice)
    (g0 : u0.indices m0 = (0, (m0 : Int), 1))
    (g1 : u1.indices m1 = (0, (m1 : Int), 1))
    (g2 : u2.indices m2 = (0, (m2 : Int), 1))
    (g3 : u3.indices m3 = (0, (m3 : Int), 1))
    (g4 : u4.indices m4 = (0, (m4 : Int), 1)) :
    (Imaris5DProxy.getItem r [.slice s0, .slice s1, .slice s2, .slice s3,
        .slice s4]).map NDArray.shape = some (Imaris5DProxy.shape r) ∧
    (Numpy5DProxy.getItem b [.slice u0, .slice u1, .slice u2, .slice u3,
        .slice u4]).map NDArray.shape = some b.shape := by
  constructor
  · have hv0 : s0.stepVal = 1 := Slice.stepVal_of_full h0
    have hnk : Imaris5DProxy.normalizeKey [KeyElem.slice s0, .slice s1, .slice s2,
        .slice s3, .slice s4] = [KeyElem.slice s0, .slice s1, .slice s2,
        .slice s3, .slice s4] :=
      @Imaris5DProxy.normalizeKey_of_five [KeyElem.slice s0, .slice s1, .slice s2,
        .slice s3, .slice s4] rfl (by simp)
    simp only [Imaris5DProxy.getItem, hnk, KeyElem.toSel, Option.bind_some,
      Option.some_bind, Option.bind_eq_bind, Option.map_some']
    rw [if_neg (by rw [hv0]; norm_num), h0]
    rcases Nat.eq_zero_or_pos r.nT with hT | hT
    · rw [if_pos]
      · simp [filledArr, Imaris5DProxy.shape, hT]
      · rw [rangeList_zero_nat_one, List.length_map, List.length_range, hT]
    · rw [if_neg (by
        rw [rangeList_zero_nat_one, List.length_map, List.length_range]
        omega)]
      have hmap : ∀ ti ∈ rangeList 0 (r.nT : Int) 1,
          ∃ c, Imaris5DProxy.read_timepoint r ti (.slice s1) (.slice s2) = some c ∧
            c.shape = [r.nZ, r.nC, r.nY, r.nX] := by
        intro ti hti
        rw [rangeList_zero_nat_one] at hti
        obtain ⟨k, hk, rfl⟩ := List.mem_map.mp hti
        rw [List.mem_range] at hk
        exact Imaris5DProxy.read_timepoint_full_shape r h1 h2 hC hk
      obtain ⟨out, hout, hlen, hsh⟩ := mapM_some_shape hmap
      have hne : out ≠ [] := by
        intro hemp
        rw [hemp, List.length_nil, rangeList_zero_nat_one, List.length_map,
          List.length_range] at hlen
        omega
      obtain ⟨d, hd, hdsh, _⟩ := stackList_spec hne hsh
      rw [hout, Option.some_bind, hd, Option.some_bind]
      rw [hlen, rangeList_zero_nat_one, List.length_map, List.length_range] at hdsh
      rw [npIndex_full5_shape d hdsh h3 h4]
      rfl
  · have hnk : Numpy5DProxy.normalizeKey [KeyElem.slice u0, .slice u1, .slice u2,
        .slice u3, .slice u4] = [KeyElem.slice u0, .slice u1, .slice u2,
        .slice u3, .slice u4] :=
      @Numpy5DProxy.normalizeKey_keeps_five [KeyElem.slice u0, .slice u1, .slice u2,
        .slice u3, .slice u4] rfl (by simp)
    have hsel : ([KeyElem.slice u0, .slice u1, .slice u2, .slice u3,
        .slice u4].mapM KeyElem.toSel) =
        some [Sel.slice u0, .slice u1, .slice u2, .slice u3, .slice u4] := rfl
    simp only [Numpy5DProxy.getItem, hnk, hsel, Option.some_bind]
    rw [npIndex, if_pos]
    · rw [Option.map_some', hb]
      congr 1
      simp only [keyShape, Slice.select_of_full g0, Slice.select_of_full g1,
        Slice.select_of_full g2, Slice.select_of_full g3, Slice.select_of_full g4,
        List.length_range]
    · rw [hb]
      simp [npKeyOK, selOK_step_one _ (Slice.stepVal_of_full g0),
        selOK_step_one _ (Slice.stepVal_of_full g1),
        selOK_step_one _ (Slice.stepVal_of_full g2),
        selOK_step_one _ (Slice.stepVal_of_full g3),
        selOK_step_one _ (Slice.stepVal_of_full g4)]

/-- Witness for C1: the full-range key on the concrete reader and
buffer fixtures. -/
theorem c1_full_range_key_preserves_shape_witness :
    (Imaris5DProxy.getItem witnessReader [KeyElem.slice Slice.all,
        .slice Slice.all, .slice Slice.all, .slice Slice.all,
        .slice Slice.all]).map NDArray.shape =
      some (Imaris5DProxy.shape witnessReader) ∧
    (Numpy5DProxy.getItem witnessArr [KeyElem.slice Slice.all, .slice Slice.all,
        .slice Slice.all, .slice Slice.all, .slice Slice.all]).map NDArray.shape =
      some witnessArr.shape :=
  c1_full_range_key_preserves_shape witnessReader (by decide)
    Slice.all Slice.all Slice.all Slice.all Slice.all
    (by decide) (by decide) (by decide) (by decide) (by decide)
    witnessArr 2 3 4 5 6 rfl
    Slice.all Slice.all Slice.all Slice.all Slice.all
    (by decide) (by decide) (by decide) (by decide) (by decide)

/-- C2: a Z slice resolving to `start 0, stop Z, step 1` makes
`_read_z_slice` issue exactly one reader call, the bulk `z=None` one;
the returned array equals the bulk read and is equivalent to the stack
that per-plane reads at `z = 0 .. Z-1` would produce. -/
theorem c2_full_z_single_bulk_read {α : Type} [Inhabited α] (r : ImarisReader α)
    (hZ : 0 < r.nZ) (c t : Nat) (hc : c < r.nC) (ht : t < r.nT) (s : Slice)
    (hs : s.indices r.nZ = (0, (r.nZ : Int), 1)) :
    Imaris5DProxy.read_z_slice_calls r (.slice s) = [none] ∧
    Imaris5DProxy.read_z_slice r (c : Int) (t : Int) (.slice s) =
      r.read (c : Int) (t : Int) none ∧
    OptEquiv (Imaris5DProxy.read_z_slice r (c : Int) (t : Int) (.slice s))
      (((List.range r.nZ).mapM (fun (zi : Nat) => r.read (c : Int) (t : Int)
        (some (zi : Int)))).bind stackList) := by
  have h1 : s.stepVal = 1 := Slice.stepVal_of_full hs
  have hcalls : Imaris5DProxy.read_z_slice_calls r (.slice s) = [none] := by
    simp [Imaris5DProxy.read_z_slice_calls, h1, hs]
  have hbulk := Imaris5DProxy.read_z_slice_full r hs (c : Int) (t : Int)
  refine ⟨hcalls, hbulk, ?_⟩
  have hmap : ∀ zi ∈ List.range r.nZ,
      r.read (c : Int) (t : Int) (some (zi : Int)) =
        some ⟨[r.nY, r.nX], fun ix => r.pix t c zi (ix.getD 0 0) (ix.getD 1 0)⟩ := by
    intro zi hzi
    exact ImarisReader.read_plane_eq r hc ht (List.mem_range.mp hzi)
  obtain ⟨b, hb, hbs, hbd⟩ := @stackList_spec α _
    ((List.range r.nZ).map (fun zi =>
      ⟨[r.nY, r.nX], fun ix => r.pix t c zi (ix.getD 0 0) (ix.getD 1 0)⟩))
    [r.nY, r.nX]
    (by
      intro hemp
      rw [List.map_eq_nil_iff, List.range_eq_nil] at hemp
      omega)
    (by
      intro x hx
      obtain ⟨zi, _, rfl⟩ := List.mem_map.mp hx
      rfl)
  rw [hbulk, ImarisReader.read_none_eq r hc ht, mapM_some hmap, Option.some_bind, hb]
  have hblen : b.shape = [r.nZ, r.nY, r.nX] := by
    rw [hbs, List.length_map, List.length_range]
  refine ⟨by rw [hblen], ?_⟩
  intro ix hix
  rcases hix with _ | ⟨hz1, hix⟩
  rcases hix with _ | ⟨hy1, hix⟩
  rcases hix with _ | ⟨hx1, hix⟩
  rcases hix
  rename_i iz iy ixx
  rw [hbd iz [iy, ixx]]
  rw [List.get?_eq_getElem?, List.getElem?_map, List.getElem?_range
    (by simpa using hz1)]
  simp

/-- Witness for C2 at the concrete reader, channel 1, time 0, full
slice. -/
theorem c2_full_z_single_bulk_read_witness :
    Imaris5DProxy.read_z_slice_calls witnessReader (.slice Slice.all) = [none] ∧
    Imaris5DProxy.read_z_slice witnessReader ((1 : Nat) : Int) ((0 : Nat) : Int)
        (.slice Slice.all) =
      witnessReader.read ((1 : Nat) : Int) ((0 : Nat) : Int) none ∧
    OptEquiv (Imaris5DProxy.read_z_slice witnessReader ((1 : Nat) : Int)
        ((0 : Nat) : Int) (.slice Slice.all))
      (((List.range witnessReader.nZ).mapM (fun (zi : Nat) =>
        witnessReader.read ((1 : Nat) : Int) ((0 : Nat) : Int)
          (some (zi : Int)))).bind stackList) :=
  c2_full_z_single_bulk_read witnessReader (by decide) 1 0 (by decide) (by decide)
    Slice.all (by decide)

theorem Slice.select_length (s : Slice) (n : Nat) :
    (s.select n).length =
      (rangeList (s.indices n).1 (s.indices n).2.1 (s.indices n).2.2).length := by
  rcases h : s.indices n with ⟨a, b, c⟩
  simp [Slice.select, h]

theorem Sel.toKeyElem_toSel (y : Sel) : (Sel.toKeyElem y).toSel = some y := by
  cases y <;> rfl

theorem Sel.toKeyElem_ne_ellipsis (y : Sel) : Sel.toKeyElem y ≠ KeyElem.ellipsis := by
  cases y <;> simp [Sel.toKeyElem]

theorem Imaris5DProxy.read_z_slice_empty_shape {α : Type} [Inhabited α]
    (r : ImarisReader α) {s : Slice} (hstep : s.stepVal ≠ 0)
    (hzero : (s.select r.nZ).length = 0) {c t : Int}
    (hc : 0 ≤ c ∧ c < (r.nC : Int)) (ht : 0 ≤ t ∧ t < (r.nT : Int)) :
    ∃ v, Imaris5DProxy.read_z_slice r c t (.slice s) = some v ∧
      v.shape = [0, r.nY, r.nX] := by
  rw [Slice.select_length] at hzero
  rw [Imaris5DProxy.read_z_slice]
  rw [if_neg hstep]
  by_cases hb : (s.indices r.nZ).2.2 = 1 ∧ (s.indices r.nZ).1 = 0 ∧
      (s.indices r.nZ).2.1 = (r.nZ : Int)
  · have hZ0 : r.nZ = 0 := by
      rw [hb.1, hb.2.1, hb.2.2, rangeList_zero_nat_one, List.length_map,
        List.length_range] at hzero
      exact hzero
    rw [if_pos (by rw [hb.1, hb.2.1, hb.2.2]; exact ⟨rfl, rfl, rfl⟩)]
    rw [ImarisReader.read, if_pos ⟨ht.1, ht.2, hc.1, hc.2⟩]
    refine ⟨_, rfl, ?_⟩
    show [r.nZ, r.nY, r.nX] = [0, r.nY, r.nX]
    rw [hZ0]
  · rw [if_neg (by
      intro hcon
      exact hb ⟨hcon.1, hcon.2.1, hcon.2.2⟩)]
    rw [if_pos hzero]
    exact ⟨_, rfl, rfl⟩

theorem npIndex_empty3_shape {α : Type} (d : NDArray α) {n1 n2 : Nat}
    (hd : d.shape = [0, n1, n2]) {y x : Sel}
    (hy : selOK y n1 = true) (hx : selOK x n2 = true) :
    (npIndex d (List.replicate (d.shape.length - 2) Sel.all ++ [y, x])).map
        NDArray.shape =
      some (0 :: keyShape [y, x] [n1, n2]) := by
  have hrep : d.shape.length - 2 = 1 := by rw [hd]; rfl
  rw [hrep]
  have hkey : List.replicate 1 Sel.all ++ [y, x] = [Sel.all, y, x] := rfl
  rw [hkey, npIndex, if_pos]
  · rw [Option.map_some']
    congr 1
    rw [hd]
    show keyShape (Sel.slice Slice.all :: [y, x]) (0 :: [n1, n2]) = _
    rw [keyShape, Slice.all_select]
    rfl
  · rw [hd]
    show npKeyOK (Sel.slice Slice.all :: [y, x]) (0 :: [n1, n2]) = true
    have h0 : selOK (Sel.slice Slice.all) 0 = true := selOK_all 0
    simp [npKeyOK, h0, hy, hx]

theorem npIndex_all2_shape {α : Type} (d : NDArray α) {a b n1 n2 : Nat}
    (hd : d.shape = [a, b, n1, n2]) {y x : Sel}
    (hy : selOK y n1 = true) (hx : selOK x n2 = true) :
    (npIndex d (List.replicate (d.shape.length - 2) Sel.all ++ [y, x])).map
        NDArray.shape =
      some (a :: b :: keyShape [y, x] [n1, n2]) := by
  have hrep : d.shape.length - 2 = 2 := by rw [hd]; rfl
  rw [hrep]
  have hkey : List.replicate 2 Sel.all ++ [y, x] = [Sel.all, Sel.all, y, x] := rfl
  rw [hkey, npIndex, if_pos]
  · rw [Option.map_some']
    congr 1
    rw [hd]
    show keyShape (Sel.slice Slice.all :: Sel.slice Slice.all :: [y, x])
      (a :: b :: [n1, n2]) = _
    rw [keyShape, keyShape, Slice.all_select, Slice.all_select,
      List.length_range, List.length_range]
  · rw [hd]
    show npKeyOK (Sel.slice Slice.all :: Sel.slice Slice.all :: [y, x])
      (a :: b :: [n1, n2]) = true
    have h0 : selOK (Sel.slice Slice.all) a = true := selOK_all a
    have h1 : selOK (Sel.slice Slice.all) b = true := selOK_all b
    simp [npKeyOK, h0, h1, hy, hx]

theorem npIndex_all3_shape {α : Type} (d : NDArray α) {a b c n1 n2 : Nat}
    (hd : d.shape = [a, b, c, n1, n2]) {y x : Sel}
    (hy : selOK y n1 = true) (hx : selOK x n2 = true) :
    (npIndex d (List.replicate (d.shape.length - 2) Sel.all ++ [y, x])).map
        NDArray.shape =
      some (a :: b :: c :: keyShape [y, x] [n1, n2]) := by
  have hrep : d.shape.length - 2 = 3 := by rw [hd]; rfl
  rw [hrep]
  have hkey : List.replicate 3 Sel.all ++ [y, x] =
    [Sel.all, Sel.all, Sel.all, y, x] := rfl
  rw [hkey, npIndex, if_pos]
  · rw [Option.map_some']
    congr 1
    rw [hd]
    show keyShape (Sel.slice Slice.all :: Sel.slice Slice.all ::
      Sel.slice Slice.all :: [y, x]) (a :: b :: c :: [n1, n2]) = _
    rw [keyShape, keyShape, keyShape, Slice.all_select, Slice.all_select,
      Slice.all_select, List.length_range, List.length_range,
      List.length_range]
  · rw [hd]
    show npKeyOK (Sel.slice Slice.all :: Sel.slice Slice.all ::
      Sel.slice Slice.all :: [y, x]) (a :: b :: c :: [n1, n2]) = true
    have h0 : selOK (Sel.slice Slice.all) a = true := selOK_all a
    have h1 : selOK (Sel.slice Slice.all) b = true := selOK_all b
    have h2 : selOK (Sel.slice Slice.all) c = true := selOK_all c
    simp [npKeyOK, h0, h1, h2, hy, hx]

theorem Slice.indices_bounds (s : Slice) (n : Nat) :
    (¬ s.stepVal < 0 → 0 ≤ (s.indices n).1 ∧ (s.indices n).1 ≤ (n : Int) ∧
      0 ≤ (s.indices n).2.1 ∧ (s.indices n).2.1 ≤ (n : Int)) ∧
    (s.stepVal < 0 → -1 ≤ (s.indices n).1 ∧ (s.indices n).1 ≤ (n : Int) - 1 ∧
      -1 ≤ (s.indices n).2.1 ∧ (s.indices n).2.1 ≤ (n : Int) - 1) := by
  by_cases hneg : s.stepVal < 0
  · cases hs : s.start <;> cases ht : s.stop <;>
      simp only [Slice.indices, hs, ht, if_pos hneg] <;>
      refine ⟨fun h => absurd hneg h, fun _ => ?_⟩ <;>
      (try split_ifs) <;> omega
  · cases hs : s.start <;> cases ht : s.stop <;>
      simp only [Slice.indices, hs, ht, if_neg hneg] <;>
      refine ⟨fun _ => ?_, fun h => absurd h hneg⟩ <;>
      (try split_ifs) <;> omega

theorem rangeList_mem_pos {start stop step : Int} (hpos : 0 < step) :
    ∀ v ∈ rangeList start stop step, start ≤ v ∧ v < stop := by
  intro v hv
  rw [rangeList] at hv
  obtain ⟨i, hi, rfl⟩ := List.mem_map.mp hv
  rw [List.mem_range, rangeCount, if_pos hpos] at hi
  have h1 : (i + 1) * step.toNat ≤ (stop - start).toNat + (step.toNat - 1) :=
    (Nat.le_div_iff_mul_le (by omega)).mp hi
  have h2 : i * step.toNat + step.toNat ≤
      (stop - start).toNat + (step.toNat - 1) := by
    calc i * step.toNat + step.toNat = (i + 1) * step.toNat := by ring
      _ ≤ _ := h1
  have h3 : i * step.toNat < (stop - start).toNat := by omega
  have hm : ((step.toNat : Nat) : Int) = step := Int.toNat_of_nonneg (by omega)
  have hx : (i : Int) * step = ((i * step.toNat : Nat) : Int) := by
    push_cast
    rw [hm]
  show start ≤ start + (i : Int) * step ∧ start + (i : Int) * step < stop
  rw [hx]
  omega

theorem rangeList_mem_neg {start stop step : Int} (hneg : step < 0) :
    ∀ v ∈ rangeList start stop step, stop < v ∧ v ≤ start := by
  intro v hv
  rw [rangeList] at hv
  obtain ⟨i, hi, rfl⟩ := List.mem_map.mp hv
  rw [List.mem_range, rangeCount, if_neg (by omega), if_pos hneg] at hi
  have h1 : (i + 1) * (-step).toNat ≤
      (start - stop).toNat + ((-step).toNat - 1) :=
    (Nat.le_div_iff_mul_le (by omega)).mp hi
  have h2 : i * (-step).toNat + (-step).toNat ≤
      (start - stop).toNat + ((-step).toNat - 1) := by
    calc i * (-step).toNat + (-step).toNat = (i + 1) * (-step).toNat := by ring
      _ ≤ _ := h1
  have h3 : i * (-step).toNat < (start - stop).toNat := by omega
  have hm : (((-step).toNat : Nat) : Int) = -step := Int.toNat_of_nonneg (by omega)
  have hx : (i : Int) * step = -((i * (-step).toNat : Nat) : Int) := by
    push_cast
    rw [hm]
    ring
  show stop < start + (i : Int) * step ∧ start + (i : Int) * step ≤ start
  rw [hx]
  omega

theorem Slice.select_bounds {s : Slice} {n : Nat} (hstep : s.stepVal ≠ 0) :
    ∀ v ∈ rangeList (s.indices n).1 (s.indices n).2.1 (s.indices n).2.2,
      0 ≤ v ∧ v < (n : Int) := by
  intro v hv
  rw [Slice.indices_step] at hv
  by_cases hneg : s.stepVal < 0
  · have hb := (Slice.indices_bounds s n).2 hneg
    have hvv := rangeList_mem_neg hneg v hv
    omega
  · have hb := (Slice.indices_bounds s n).1 hneg
    have hvv := rangeList_mem_pos (by omega) v hv
    omega

theorem Imaris5DProxy.read_timepoint_z_empty {α : Type} [Inhabited α]
    (r : ImarisReader α) {sz : Slice} (hstep : sz.stepVal ≠ 0)
    (hzero : (sz.select r.nZ).length = 0) {t : Int}
    (ht : 0 ≤ t ∧ t < (r.nT : Int)) (kc : KeyElem)
    (hkc : (∃ ci : Nat, kc = .idx (ci : Int) ∧ ci < r.nC) ∨
      (∃ sc : Slice, kc = .slice sc ∧ sc.stepVal ≠ 0 ∧
        (sc.select r.nC).length ≠ 0)) :
    ∃ w, Imaris5DProxy.read_timepoint r t (.slice sz) kc = some w ∧
      w.shape = 0 :: keyShape [kc.toSelD] [r.nC] ++ [r.nY, r.nX] := by
  rcases hkc with ⟨ci, rfl, hci⟩ | ⟨sc, rfl, hscstep, hscne⟩
  · obtain ⟨v, hv, hvs⟩ := Imaris5DProxy.read_z_slice_empty_shape r hstep hzero
      ⟨Int.ofNat_nonneg ci, by exact_mod_cast hci⟩ ht
    exact ⟨v, hv, hvs⟩
  · simp only [Imaris5DProxy.read_timepoint]
    rw [if_neg hscstep]
    have hmem : ∀ ci ∈ rangeList (sc.indices r.nC).1 (sc.indices r.nC).2.1
        (sc.indices r.nC).2.2,
        ∃ v, Imaris5DProxy.read_z_slice r ci t (.slice sz) = some v ∧
          v.shape = [0, r.nY, r.nX] := by
      intro ci hcim
      have hbc := Slice.select_bounds hscstep ci hcim
      exact Imaris5DProxy.read_z_slice_empty_shape r hstep hzero hbc ht
    obtain ⟨vs, hvs, hvslen, hvssh⟩ := mapM_some_shape hmem
    have hcsne : ¬ (rangeList (sc.indices r.nC).1 (sc.indices r.nC).2.1
        (sc.indices r.nC).2.2).length = 0 := by
      rw [← Slice.select_length]
      exact hscne
    have hvne : vs ≠ [] := by
      intro hcon
      rw [hcon] at hvslen
      exact hcsne hvslen.symm
    obtain ⟨b, hb, hbs, _⟩ := stackList_spec hvne hvssh
    rw [hvs, Option.some_bind, hb, Option.some_bind]
    have hb4 : b.shape.length = 4 := by rw [hbs]; rfl
    rw [if_pos hb4, npTranspose_1023 b hb4]
    refine ⟨transposeArr b [1, 0, 2, 3], rfl, ?_⟩
    show ([1, 0, 2, 3].map (fun p => b.shape.getD p 0)) = _
    rw [hbs, hvslen, ← Slice.select_length]
    rfl

/-- C4 counterexample: on the concrete reader (shape `(2,3,2,4,5)` as a
proxy), the key `(slice(0,0), 0, 0, :, :)` has a Time range selecting
zero elements; the claim predicts shape `(0, 4, 5)` (degenerate Time
axis, integer Z and Channel collapsed, Y and X applied), but the code
returns the full `(0, Z, C, Y, X) = (0, 3, 2, 4, 5)`, ignoring the
remaining selectors. -/
theorem c4_degenerate_counterexample :
    (Imaris5DProxy.getItem witnessReader [KeyElem.slice ⟨some 0, some 0, none⟩,
        .idx 0, .idx 0, .slice Slice.all, .slice Slice.all]).map NDArray.shape =
      some [0, 3, 2, 4, 5] ∧
    ([0, 3, 2, 4, 5] : List Nat) ≠ ([0, 4, 5] : List Nat) :=
  ⟨by decide, by decide⟩

/-- C4, amended: a Z range selecting zero planes, under any valid Time
and Channel selectors (an in-range integer, or a range with nonzero step
selecting at least one element), returns an empty result with the
zero-length Z axis and the Time, Channel, Y and X selectors still
applied, never raising; but a Time range selecting zero elements
returns an empty result of the fixed shape `(0, Z, C, Y, X)`, ignoring
the remaining selectors, also never raising. -/
theorem c4_degenerate_ranges_amended {α : Type} [Inhabited α] (r : ImarisReader α)
    (kt kc : KeyElem)
    (hkt : (∃ ti : Nat, kt = .idx (ti : Int) ∧ ti < r.nT) ∨
      (∃ st : Slice, kt = .slice st ∧ st.stepVal ≠ 0 ∧
        (st.select r.nT).length ≠ 0))
    (hkc : (∃ ci : Nat, kc = .idx (ci : Int) ∧ ci < r.nC) ∨
      (∃ sc : Slice, kc = .slice sc ∧ sc.stepVal ≠ 0 ∧
        (sc.select r.nC).length ≠ 0))
    (sz : Slice) (hstep : sz.stepVal ≠ 0) (hzero : (sz.select r.nZ).length = 0)
    (y x : Sel) (hy : selOK y r.nY = true) (hx : selOK x r.nX = true)
    (st2 : Slice) (hstept : st2.stepVal ≠ 0)
    (hzerot : (st2.select r.nT).length = 0)
    (z2 c2 y2 x2 : Sel) :
    (Imaris5DProxy.getItem r [kt, .slice sz, kc,
        y.toKeyElem, x.toKeyElem]).map NDArray.shape =
      some (keyShape [kt.toSelD] [r.nT] ++ 0 :: keyShape [kc.toSelD] [r.nC] ++
        keyShape [y, x] [r.nY, r.nX]) ∧
    Imaris5DProxy.getItem r [KeyElem.slice st2, z2.toKeyElem, c2.toKeyElem,
        y2.toKeyElem, x2.toKeyElem] =
      some (filledArr α [0, r.nZ, r.nC, r.nY, r.nX]) := by
  constructor
  · have hktne : kt ≠ KeyElem.ellipsis := by
      rcases hkt with ⟨ti, rfl, _⟩ | ⟨st, rfl, _, _⟩ <;> simp
    have hkcne : kc ≠ KeyElem.ellipsis := by
      rcases hkc with ⟨ci, rfl, _⟩ | ⟨sc, rfl, _, _⟩ <;> simp
    have hnoell : KeyElem.ellipsis ∉ [kt, KeyElem.slice sz, kc,
        y.toKeyElem, x.toKeyElem] := by
      intro hm
      simp only [List.mem_cons, List.not_mem_nil, or_false] at hm
      rcases hm with h | h | h | h | h
      · exact hktne h.symm
      · cases h
      · exact hkcne h.symm
      · exact Sel.toKeyElem_ne_ellipsis y h.symm
      · exact Sel.toKeyElem_ne_ellipsis x h.symm
    have hnk := @Imaris5DProxy.normalizeKey_of_five
      [kt, KeyElem.slice sz, kc, y.toKeyElem, x.toKeyElem] rfl hnoell
    rcases hkt with ⟨ti, rfl, hti⟩ | ⟨st, rfl, hststep, hstne⟩
    · have htb : 0 ≤ ((ti : Nat) : Int) ∧ ((ti : Nat) : Int) < (r.nT : Int) :=
        ⟨Int.ofNat_nonneg ti, by exact_mod_cast hti⟩
      rcases hkc with ⟨ci, rfl, hci⟩ | ⟨sc, rfl, hscstep, hscne⟩
      · obtain ⟨w, hw, hws⟩ := Imaris5DProxy.read_timepoint_z_empty r hstep
          hzero htb (.idx (ci : Int)) (Or.inl ⟨ci, rfl, hci⟩)
        have hws3 : w.shape = [0, r.nY, r.nX] := hws
        simp only [Imaris5DProxy.getItem, hnk, Sel.toKeyElem_toSel,
          Option.some_bind, Option.bind_eq_bind, Option.map_some', hw]
        exact npIndex_empty3_shape w hws3 hy hx
      · obtain ⟨w, hw, hws⟩ := Imaris5DProxy.read_timepoint_z_empty r hstep
          hzero htb (.slice sc) (Or.inr ⟨sc, rfl, hscstep, hscne⟩)
        have hws4 : w.shape = [0, (sc.select r.nC).length, r.nY, r.nX] := hws
        simp only [Imaris5DProxy.getItem, hnk, Sel.toKeyElem_toSel,
          Option.some_bind, Option.bind_eq_bind, Option.map_some', hw]
        exact npIndex_all2_shape w hws4 hy hx
    · have htsne : ¬ (rangeList (st.indices r.nT).1 (st.indices r.nT).2.1
          (st.indices r.nT).2.2).length = 0 := by
        rw [← Slice.select_length]
        exact hstne
      rcases hkc with ⟨ci, rfl, hci⟩ | ⟨sc, rfl, hscstep, hscne⟩
      · have hmemt : ∀ ti ∈ rangeList (st.indices r.nT).1 (st.indices r.nT).2.1
            (st.indices r.nT).2.2,
            ∃ w, Imaris5DProxy.read_timepoint r ti (.slice sz)
              (.idx (ci : Int)) = some w ∧ w.shape = [0, r.nY, r.nX] := by
          intro ti hmemti
          have hbt := Slice.select_bounds hststep ti hmemti
          obtain ⟨w, hw, hws⟩ := Imaris5DProxy.read_timepoint_z_empty r hstep
            hzero hbt (.idx (ci : Int)) (Or.inl ⟨ci, rfl, hci⟩)
          exact ⟨w, hw, hws⟩
        obtain ⟨vs, hvs, hvslen, hvssh⟩ := mapM_some_shape hmemt
        have hvne : vs ≠ [] := by
          intro hcon
          rw [hcon] at hvslen
          exact htsne hvslen.symm
        obtain ⟨b, hb, hbs, _⟩ := stackList_spec hvne hvssh
        have hbs4 : b.shape = [(st.select r.nT).length, 0, r.nY, r.nX] := by
          rw [hbs, hvslen, ← Slice.select_length]
        simp only [Imaris5DProxy.getItem, hnk, Sel.toKeyElem_toSel,
          Option.some_bind, Option.bind_eq_bind, Option.map_some']
        rw [if_neg hststep, if_neg htsne, hvs, Option.some_bind, hb,
          Option.some_bind]
        exact npIndex_all2_shape b hbs4 hy hx
      · have hmemt : ∀ ti ∈ rangeList (st.indices r.nT).1 (st.indices r.nT).2.1
            (st.indices r.nT).2.2,
            ∃ w, Imaris5DProxy.read_timepoint r ti (.slice sz)
              (.slice sc) = some w ∧
              w.shape = [0, (sc.select r.nC).length, r.nY, r.nX] := by
          intro ti hmemti
          have hbt := Slice.select_bounds hststep ti hmemti
          obtain ⟨w, hw, hws⟩ := Imaris5DProxy.read_timepoint_z_empty r hstep
            hzero hbt (.slice sc) (Or.inr ⟨sc, rfl, hscstep, hscne⟩)
          exact ⟨w, hw, hws⟩
        obtain ⟨vs, hvs, hvslen, hvssh⟩ := mapM_some_shape hmemt
        have hvne : vs ≠ [] := by
          intro hcon
          rw [hcon] at hvslen
          exact htsne hvslen.symm
        obtain ⟨b, hb, hbs, _⟩ := stackList_spec hvne hvssh
        have hbs5 : b.shape = [(st.select r.nT).length, 0,
            (sc.select r.nC).length, r.nY, r.nX] := by
          rw [hbs, hvslen, ← Slice.select_length]
        simp only [Imaris5DProxy.getItem, hnk, Sel.toKeyElem_toSel,
          Option.some_bind, Option.bind_eq_bind, Option.map_some']
        rw [if_neg hststep, if_neg htsne, hvs, Option.some_bind, hb,
          Option.some_bind]
        exact npIndex_all3_shape b hbs5 hy hx
  · have hnk : Imaris5DProxy.normalizeKey [KeyElem.slice st2, z2.toKeyElem,
        c2.toKeyElem, y2.toKeyElem, x2.toKeyElem] =
        [KeyElem.slice st2, z2.toKeyElem, c2.toKeyElem, y2.toKeyElem,
          x2.toKeyElem] :=
      Imaris5DProxy.normalizeKey_of_five rfl
        (by cases z2 <;> cases c2 <;> cases y2 <;> cases x2 <;>
          simp [Sel.toKeyElem])
    rw [Slice.select_length] at hzerot
    simp only [Imaris5DProxy.getItem, hnk, Sel.toKeyElem_toSel,
      Option.some_bind, Option.bind_eq_bind, Option.map_some']
    rw [if_neg hstept, if_pos hzerot]

/-- Witness for C4 amended at the concrete reader: a zero-plane Z range
`slice(2, 1)` under a full Time range and the channel range
`slice(0, 2)` (so both degenerate-Z companions are range selectors),
and a zero-length Time range `slice(0, 0)`. -/
theorem c4_degenerate_ranges_amended_witness :
    (Imaris5DProxy.getItem witnessReader [KeyElem.slice Slice.all,
        .slice ⟨some 2, some 1, none⟩, .slice ⟨some 0, some 2, none⟩,
        (Sel.slice Slice.all).toKeyElem, (Sel.idx 3).toKeyElem]).map
        NDArray.shape =
      some (keyShape [(KeyElem.slice Slice.all).toSelD] [witnessReader.nT] ++
        0 :: keyShape [(KeyElem.slice ⟨some 0, some 2, none⟩).toSelD]
          [witnessReader.nC] ++
        keyShape [Sel.slice Slice.all, Sel.idx 3]
          [witnessReader.nY, witnessReader.nX]) ∧
    Imaris5DProxy.getItem witnessReader [KeyElem.slice ⟨some 0, some 0, none⟩,
        (Sel.idx 0).toKeyElem, (Sel.idx 0).toKeyElem,
        (Sel.slice Slice.all).toKeyElem, (Sel.slice Slice.all).toKeyElem] =
      some (filledArr Nat [0, witnessReader.nZ, witnessReader.nC,
        witnessReader.nY, witnessReader.nX]) :=
  c4_degenerate_ranges_amended witnessReader (KeyElem.slice Slice.all)
    (KeyElem.slice ⟨some 0, some 2, none⟩)
    (Or.inr ⟨Slice.all, rfl, by decide, by decide⟩)
    (Or.inr ⟨⟨some 0, some 2, none⟩, rfl, by decide, by decide⟩)
    ⟨some 2, some 1, none⟩ (by decide) (by decide)
    (Sel.slice Slice.all) (Sel.idx 3) (by decide) (by decide)
    ⟨some 0, some 0, none⟩ (by decide) (by decide)
    (Sel.idx 0) (Sel.idx 0) (Sel.slice Slice.all) (Sel.slice Slice.all)

theorem foldl_set_length {γ : Type} :
    ∀ (l : List (Nat × γ)) (acc : List γ),
      (l.foldl (fun a pk => a.set pk.1 pk.2) acc).length = acc.length := by
  intro l
  induction l with
  | nil => intro acc; rfl
  | cons pk l ih =>
    intro acc
    show (l.foldl _ (acc.set pk.1 pk.2)).length = acc.length
    rw [ih, List.length_set]

theorem foldl_set_getElem?_not_mem {γ : Type} :
    ∀ {ps : List Nat} {ks : List γ} {acc : List γ} {d : Nat}, d ∉ ps →
      ((ps.zip ks).foldl (fun a pk => a.set pk.1 pk.2) acc)[d]? = acc[d]? := by
  intro ps
  induction ps with
  | nil => intro ks acc d _; rfl
  | cons p ps ih =>
    intro ks acc d h
    cases ks with
    | nil => rfl
    | cons k ks =>
      have hd : d ∉ ps := fun hm => h (List.mem_cons_of_mem p hm)
      have hne : d ≠ p := fun he => h (he ▸ List.mem_cons_self p ps)
      show ((ps.zip ks).foldl _ (acc.set p k))[d]? = acc[d]?
      rw [ih hd, List.getElem?_set_ne (fun he => hne he.symm)]

theorem foldl_set_getElem?_at {γ : Type} :
    ∀ {ps : List Nat} {ks : List γ} {acc : List γ} {i : Nat},
      ps.Nodup → i < ps.length → i < ks.length → ps.getD i 0 < acc.length →
      ((ps.zip ks).foldl (fun a pk => a.set pk.1 pk.2) acc)[ps.getD i 0]? =
        ks[i]? := by
  intro ps
  induction ps with
  | nil => intro ks acc i _ hi; exact absurd hi (by simp)
  | cons p ps ih =>
    intro ks acc i hnd hi hk hacc
    cases ks with
    | nil => exact absurd hk (by simp)
    | cons k ks =>
      rcases List.nodup_cons.mp hnd with ⟨hpm, hnd2⟩
      cases i with
      | zero =>
        rw [List.getD_cons_zero] at hacc ⊢
        rw [List.zip_cons_cons, List.foldl_cons, List.getElem?_cons_zero]
        rw [foldl_set_getElem?_not_mem hpm, List.getElem?_set_self hacc]
      | succ i =>
        rw [List.getD_cons_succ] at hacc ⊢
        rw [List.zip_cons_cons, List.foldl_cons, List.getElem?_cons_succ]
        exact ih hnd2 (by simpa using hi) (by simpa using hk)
          (by rw [List.length_set]; exact hacc)

/-- C10: on a key holding one wildcard, the permuted view only
right-pads to length 5 and moves every element, the wildcard included,
to its canonical position (one wildcard survives in the wrapped key),
whereas both 5D proxy variants expand the single wildcard in place into
`5 - (len - 1)` full slices, yielding a wildcard-free key of length 5;
the two proxy variants normalize identically. -/
theorem c10_wildcard_normalization (key : List KeyElem)
    (hcount : key.count KeyElem.ellipsis = 1) (hlen : key.length ≤ 5)
    (perm : List Nat) (hperm : perm.Perm (List.range 5)) :
    (TransposedProxy.mapKey perm key).length = 5 ∧
    KeyElem.ellipsis ∈ TransposedProxy.mapKey perm key ∧
    (∀ i, i < 5 → (TransposedProxy.mapKey perm key).getD (perm.getD i 0)
        KeyElem.all = (padKey key).getD i KeyElem.all) ∧
    Imaris5DProxy.normalizeKey key =
      key.take (List.indexOf KeyElem.ellipsis key)
        ++ List.replicate (5 - (key.length - 1)) KeyElem.all
        ++ key.drop (List.indexOf KeyElem.ellipsis key + 1) ∧
    (Imaris5DProxy.normalizeKey key).count KeyElem.ellipsis = 0 ∧
    (Imaris5DProxy.normalizeKey key).length = 5 ∧
    Numpy5DProxy.normalizeKey key = Imaris5DProxy.normalizeKey key := by
  have hmem : KeyElem.ellipsis ∈ key :=
    List.count_pos_iff.mp (by rw [hcount]; exact Nat.one_pos)
  have hplen : perm.length = 5 := hperm.length_eq.trans (List.length_range 5)
  have hpnodup : perm.Nodup := hperm.nodup_iff.mpr (List.nodup_range 5)
  have hpadlen : (padKey key).length = 5 := by
    rw [padKey, List.length_append, List.length_replicate]
    omega
  have hmaplen : (TransposedProxy.mapKey perm key).length = 5 := by
    rw [TransposedProxy.mapKey, foldl_set_length, List.length_replicate]
  have hgetD : ∀ i, i < 5 → (TransposedProxy.mapKey perm key).getD
      (perm.getD i 0) KeyElem.all = (padKey key).getD i KeyElem.all := by
    intro i hi
    have hip : i < perm.length := by omega
    have hpi : perm.getD i 0 < 5 := by
      have hmemp : perm.getD i 0 ∈ perm := by
        rw [List.getD_eq_getElem _ _ hip]
        exact List.getElem_mem _
      exact List.mem_range.mp (hperm.mem_iff.mp hmemp)
    have hfold : ((perm.zip (padKey key)).foldl
        (fun acc pk => acc.set pk.1 pk.2)
        (List.replicate 5 KeyElem.all))[perm.getD i 0]? = (padKey key)[i]? :=
      foldl_set_getElem?_at hpnodup hip (by omega)
        (by rw [List.length_replicate]; exact hpi)
    calc (TransposedProxy.mapKey perm key).getD (perm.getD i 0) KeyElem.all
        = ((TransposedProxy.mapKey perm key)[perm.getD i 0]?).getD KeyElem.all :=
          List.getD_eq_getElem?_getD _ _ _
      _ = ((padKey key)[i]?).getD KeyElem.all := by
          simp only [TransposedProxy.mapKey]
          rw [hfold]
      _ = (padKey key).getD i KeyElem.all :=
          (List.getD_eq_getElem?_getD _ _ _).symm
  have hj : List.indexOf KeyElem.ellipsis key < key.length :=
    List.indexOf_lt_length.mpr hmem
  have hlen1 : 1 ≤ key.length := List.length_pos.mpr (List.ne_nil_of_mem hmem)
  have hX5 : (key.take (List.indexOf KeyElem.ellipsis key)
      ++ List.replicate (5 - (key.length - 1)) KeyElem.all
      ++ key.drop (List.indexOf KeyElem.ellipsis key + 1)).length = 5 := by
    rw [List.length_append, List.length_append, List.length_take,
      List.length_replicate, List.length_drop]
    omega
  have hexp : Imaris5DProxy.normalizeKey key =
      key.take (List.indexOf KeyElem.ellipsis key)
        ++ List.replicate (5 - (key.length - 1)) KeyElem.all
        ++ key.drop (List.indexOf KeyElem.ellipsis key + 1) := by
    rw [Imaris5DProxy.normalizeKey, expandEllipsis, if_pos hmem, padKey, hX5]
    simp
  have hkj : key[List.indexOf KeyElem.ellipsis key] = KeyElem.ellipsis := by
    have hg := List.indexOf_get (a := KeyElem.ellipsis) (l := key) hj
    rw [List.get_eq_getElem] at hg
    exact hg
  have hsplit : (key.take (List.indexOf KeyElem.ellipsis key)).count
      KeyElem.ellipsis = 0 ∧
      (key.drop (List.indexOf KeyElem.ellipsis key + 1)).count
        KeyElem.ellipsis = 0 := by
    have hcnt : key.count KeyElem.ellipsis =
        (key.take (List.indexOf KeyElem.ellipsis key)).count KeyElem.ellipsis
          + ((key.drop (List.indexOf KeyElem.ellipsis key + 1)).count
            KeyElem.ellipsis + 1) := by
      conv_lhs => rw [← List.take_append_drop
        (List.indexOf KeyElem.ellipsis key) key]
      rw [List.count_append, List.drop_eq_getElem_cons hj, hkj,
        List.count_cons_self]
    rw [hcount] at hcnt
    omega
  have hcount0 : (Imaris5DProxy.normalizeKey key).count KeyElem.ellipsis = 0 := by
    rw [hexp, List.count_append, List.count_append, List.count_replicate,
      if_neg (by decide), hsplit.1, hsplit.2]
  have hell : KeyElem.ellipsis ∈ TransposedProxy.mapKey perm key := by
    have hmemp : KeyElem.ellipsis ∈ padKey key :=
      List.mem_append_left _ hmem
    have hjp : List.indexOf KeyElem.ellipsis (padKey key) <
        (padKey key).length := List.indexOf_lt_length.mpr hmemp
    have hjp5 : List.indexOf KeyElem.ellipsis (padKey key) < 5 := by omega
    have hpadget : (padKey key).getD
        (List.indexOf KeyElem.ellipsis (padKey key)) KeyElem.all =
        KeyElem.ellipsis := by
      rw [List.getD_eq_getElem _ _ hjp]
      have hg := List.indexOf_get (a := KeyElem.ellipsis) (l := padKey key) hjp
      rw [List.get_eq_getElem] at hg
      exact hg
    have heq := hgetD (List.indexOf KeyElem.ellipsis (padKey key)) hjp5
    rw [hpadget] at heq
    have hip : List.indexOf KeyElem.ellipsis (padKey key) < perm.length := by
      omega
    have hlt : perm.getD (List.indexOf KeyElem.ellipsis (padKey key)) 0 <
        (TransposedProxy.mapKey perm key).length := by
      rw [hmaplen]
      have hmemp2 : perm.getD (List.indexOf KeyElem.ellipsis (padKey key)) 0
          ∈ perm := by
        rw [List.getD_eq_getElem _ _ hip]
        exact List.getElem_mem _
      exact List.mem_range.mp (hperm.mem_iff.mp hmemp2)
    rw [List.getD_eq_getElem _ _ hlt] at heq
    rw [← heq]
    exact List.getElem_mem _
  exact ⟨hmaplen, hell, hgetD, hexp, hcount0, by rw [hexp]; exact hX5, rfl⟩

/-- Witness for C10: the key `(0, ..., 2)` under the ZY-view permutation. -/
theorem c10_wildcard_normalization_witness :
    (TransposedProxy.mapKey [0, 4, 2, 3, 1]
        [KeyElem.idx 0, .ellipsis, .idx 2]).length = 5 ∧
    KeyElem.ellipsis ∈ TransposedProxy.mapKey [0, 4, 2, 3, 1]
        [KeyElem.idx 0, .ellipsis, .idx 2] ∧
    (∀ i, i < 5 → (TransposedProxy.mapKey [0, 4, 2, 3, 1]
        [KeyElem.idx 0, .ellipsis, .idx 2]).getD
          ([0, 4, 2, 3, 1].getD i 0) KeyElem.all =
      (padKey [KeyElem.idx 0, .ellipsis, .idx 2]).getD i KeyElem.all) ∧
    Imaris5DProxy.normalizeKey [KeyElem.idx 0, .ellipsis, .idx 2] =
      [KeyElem.idx 0, .ellipsis, .idx 2].take
          (List.indexOf KeyElem.ellipsis [KeyElem.idx 0, .ellipsis, .idx 2])
        ++ List.replicate (5 - ([KeyElem.idx 0, .ellipsis, .idx 2].length - 1))
            KeyElem.all
        ++ [KeyElem.idx 0, .ellipsis, .idx 2].drop
            (List.indexOf KeyElem.ellipsis
              [KeyElem.idx 0, .ellipsis, .idx 2] + 1) ∧
    (Imaris5DProxy.normalizeKey [KeyElem.idx 0, .ellipsis,
        .idx 2]).count KeyElem.ellipsis = 0 ∧
    (Imaris5DProxy.normalizeKey [KeyElem.idx 0, .ellipsis, .idx 2]).length = 5 ∧
    Numpy5DProxy.normalizeKey [KeyElem.idx 0, .ellipsis, .idx 2] =
      Imaris5DProxy.normalizeKey [KeyElem.idx 0, .ellipsis, .idx 2] :=
  c10_wildcard_normalization [KeyElem.idx 0, .ellipsis, .idx 2] (by decide)
    (by decide) [0, 4, 2, 3, 1] (by decide)

/-- C5 counterexample: with parsable extents `ExtMin0 = 100`,
`ExtMax0 = 0` and size 100 the computed scale is `-1`, which is neither
strictly positive nor replaced by the claimed `1.0` fallback. -/
theorem c5_voxel_scale_counterexample :
    ImarisReader.voxAxis (some (fun k =>
        if k = "ExtMin0" then some (RawAttr.strScalar "100")
        else if k = "ExtMax0" then some (RawAttr.strScalar "0") else none))
      "ExtMin0" "ExtMax0" 100 = -1 ∧
    ¬ (0 : ℚ) < -1 ∧ (-1 : ℚ) ≠ 1 := by
  have hmin : ImarisReader.get_val (some (fun k =>
      if k = "ExtMin0" then some (RawAttr.strScalar "100")
      else if k = "ExtMax0" then some (RawAttr.strScalar "0") else none))
      "ExtMin0" pyFloat = AttrVal.val 100 := by decide
  have hmax : ImarisReader.get_val (some (fun k =>
      if k = "ExtMin0" then some (RawAttr.strScalar "100")
      else if k = "ExtMax0" then some (RawAttr.strScalar "0") else none))
      "ExtMax0" pyFloat = AttrVal.val 0 := by decide
  refine ⟨?_, by norm_num, by norm_num⟩
  rw [ImarisReader.voxAxis, hmin, hmax]
  norm_num [ensure_float]

/-- C5, amended: each axis scale is `(max - min) / size` for positive
size (with absent or unparsable extents defaulting to 0 and 1) and
falls back to 1.0 only when the size is 0 (so no division error); it is
strictly positive whenever the resolved maximum exceeds the resolved
minimum, but a parsable maximum below the minimum yields a non-positive
scale; `ExtMin0=0, ExtMax0=100, ImageSizeX=100` resolves to 1.0. -/
theorem c5_voxel_scale_amended (img : Option (String → Option RawAttr))
    (minKey maxKey : String) (s0 : Nat) (h0 : s0 = 0) (s1 : Nat) (h1 : 0 < s1)
    (hlt : ensure_float (ImarisReader.get_val img minKey pyFloat) 0 <
      ensure_float (ImarisReader.get_val img maxKey pyFloat) 1) :
    ImarisReader.voxAxis img minKey maxKey s0 = 1 ∧
    ImarisReader.voxAxis img minKey maxKey s1 =
      (ensure_float (ImarisReader.get_val img maxKey pyFloat) 1 -
        ensure_float (ImarisReader.get_val img minKey pyFloat) 0) / (s1 : ℚ) ∧
    0 < ImarisReader.voxAxis img minKey maxKey s1 ∧
    ImarisReader.voxAxis (some (fun k =>
        if k = "ExtMin0" then some (RawAttr.strScalar "0")
        else if k = "ExtMax0" then some (RawAttr.strScalar "100") else none))
      "ExtMin0" "ExtMax0" 100 = 1 := by
  have hmin : ImarisReader.get_val (some (fun k =>
      if k = "ExtMin0" then some (RawAttr.strScalar "0")
      else if k = "ExtMax0" then some (RawAttr.strScalar "100") else none))
      "ExtMin0" pyFloat = AttrVal.val 0 := by decide
  have hmax : ImarisReader.get_val (some (fun k =>
      if k = "ExtMin0" then some (RawAttr.strScalar "0")
      else if k = "ExtMax0" then some (RawAttr.strScalar "100") else none))
      "ExtMax0" pyFloat = AttrVal.val 100 := by decide
  refine ⟨by rw [ImarisReader.voxAxis, if_neg (by omega)], ?_, ?_, ?_⟩
  · rw [ImarisReader.voxAxis, if_pos h1]
  · rw [ImarisReader.voxAxis, if_pos h1]
    apply div_pos (sub_pos.mpr hlt)
    exact_mod_cast h1
  · rw [ImarisReader.voxAxis, hmin, hmax]
    norm_num [ensure_float]

/-- Witness for C5 amended: default extents (absent group), sizes 0 and
100. -/
theorem c5_voxel_scale_amended_witness :
    ImarisReader.voxAxis none "ExtMin0" "ExtMax0" 0 = 1 ∧
    ImarisReader.voxAxis none "ExtMin0" "ExtMax0" 100 =
      (ensure_float (ImarisReader.get_val none "ExtMax0" pyFloat) 1 -
        ensure_float (ImarisReader.get_val none "ExtMin0" pyFloat) 0) /
        ((100 : Nat) : ℚ) ∧
    0 < ImarisReader.voxAxis none "ExtMin0" "ExtMax0" 100 ∧
    ImarisReader.voxAxis (some (fun k =>
        if k = "ExtMin0" then some (RawAttr.strScalar "0")
        else if k = "ExtMax0" then some (RawAttr.strScalar "100") else none))
      "ExtMin0" "ExtMax0" 100 = 1 :=
  c5_voxel_scale_amended none "ExtMin0" "ExtMax0" 0 rfl 100 (by decide)
    (by decide)

/-- C6: when the decoded attribute string is nonempty and the requested
cast fails on it, `_get_val` returns the decoded string unchanged; in
particular casting the stored `"600 nm"` to float returns the string
`"600 nm"`. -/
theorem c6_cast_fallback {β : Type} (attrs : String → Option RawAttr)
    (key : String) (raw : RawAttr) (hraw : attrs key = some raw)
    (cast : String → Option β)
    (hne : ImarisReader.decode_imaris_attribute raw ≠ "")
    (hfail : cast (ImarisReader.decode_imaris_attribute raw) = none) :
    ImarisReader.get_val (some attrs) key cast =
      AttrVal.str (ImarisReader.decode_imaris_attribute raw) ∧
    ImarisReader.get_val (some (fun k => if k = "EmissionWavelength"
        then some (RawAttr.strScalar "600 nm") else none))
      "EmissionWavelength" pyFloat = AttrVal.str "600 nm" := by
  constructor
  · simp only [ImarisReader.get_val, hraw]
    rw [if_neg hne, hfail]
  · decide

/-- Witness for C6 at the `"600 nm"` attribute cast to float. -/
theorem c6_cast_fallback_witness :
    ImarisReader.get_val (some (fun k => if k = "EmissionWavelength"
        then some (RawAttr.strScalar "600 nm") else none))
      "EmissionWavelength" pyFloat =
      AttrVal.str (ImarisReader.decode_imaris_attribute
        (RawAttr.strScalar "600 nm")) ∧
    ImarisReader.get_val (some (fun k => if k = "EmissionWavelength"
        then some (RawAttr.strScalar "600 nm") else none))
      "EmissionWavelength" pyFloat = AttrVal.str "600 nm" :=
  c6_cast_fallback (fun k => if k = "EmissionWavelength"
      then some (RawAttr.strScalar "600 nm") else none)
    "EmissionWavelength" (RawAttr.strScalar "600 nm") (by decide) pyFloat
    (by decide) (by decide)

/-- C7: the numeric-aware sort orders names by the value of the first
digit run, names without digits sorting with key 0; the output is a
sorted permutation of the input, and the three resolution-level names
order as levels 2, 9, 10. -/
theorem c7_numeric_sort (names : List String) (s : String)
    (hnod : ∀ c ∈ s.data, ¬ c.isDigit) :
    List.Sorted (fun a b => numericKey a ≤ numericKey b)
      (sortByNumericKey names) ∧
    (sortByNumericKey names).Perm names ∧
    numericKey s = 0 ∧
    sortByNumericKey ["ResolutionLevel9", "ResolutionLevel10",
        "ResolutionLevel2"] =
      ["ResolutionLevel2", "ResolutionLevel9", "ResolutionLevel10"] := by
  haveI ht : IsTotal String (fun a b => numericKey a ≤ numericKey b) :=
    ⟨fun a b => Nat.le_total _ _⟩
  haveI htr : IsTrans String (fun a b => numericKey a ≤ numericKey b) :=
    ⟨fun a b c h1 h2 => Nat.le_trans h1 h2⟩
  refine ⟨List.sorted_insertionSort _ _, List.perm_insertionSort _ _, ?_,
    by decide⟩
  have hdrop : s.data.dropWhile (fun c => decide (¬ c.isDigit = true)) = [] := by
    rw [List.dropWhile_eq_nil_iff]
    intro x hx
    simp [hnod x hx]
  simp only [numericKey, firstDigitRun, hdrop]
  rfl

/-- Witness for C7 on concrete names and the digit-free name
`"NoDigits"`. -/
theorem c7_numeric_sort_witness :
    List.Sorted (fun a b => numericKey a ≤ numericKey b)
      (sortByNumericKey ["ResolutionLevel9", "ResolutionLevel10",
        "ResolutionLevel2"]) ∧
    (sortByNumericKey ["ResolutionLevel9", "ResolutionLevel10",
        "ResolutionLevel2"]).Perm
      ["ResolutionLevel9", "ResolutionLevel10", "ResolutionLevel2"] ∧
    numericKey "NoDigits" = 0 ∧
    sortByNumericKey ["ResolutionLevel9", "ResolutionLevel10",
        "ResolutionLevel2"] =
      ["ResolutionLevel2", "ResolutionLevel9", "ResolutionLevel10"] :=
  c7_numeric_sort ["ResolutionLevel9", "ResolutionLevel10",
    "ResolutionLevel2"] "NoDigits" (by decide)

/-- C8 counterexample: a rank-1 input with no label string passes
through every heuristic branch unchanged — `normalize_to_5d` returns it
wrapped without raising any shape error. -/
theorem c8_rank_counterexample :
    normalize_to_5d (⟨[3], fun ix => ix.getD 0 0⟩ : NDArray Nat) none false =
      Except.ok ⟨[3], fun ix => ix.getD 0 0⟩ ∧
    (normalize_to_5d (⟨[3], fun ix => ix.getD 0 0⟩ : NDArray Nat) none
      false).isOk = true :=
  ⟨rfl, rfl⟩

/-- C8, amended: an explicit label string whose length differs from the
rank fails with the length-mismatch error for any input; but with no
label string, a rank outside 2-5 is returned unchanged — the heuristics
have no else-branch and raise no shape error. -/
theorem c8_normalize_errors_amended {α : Type} (a : NDArray α) (ds : String)
    (hmis : (ds.data.map Char.toLower).length ≠ a.shape.length)
    (b : NDArray α) (hrank : b.shape.length < 2 ∨ 5 < b.shape.length) :
    normalize_to_5d a (some ds) false =
      Except.error ("dims string length ("
        ++ toString (ds.data.map Char.toLower).length
        ++ ") must match data ndim (" ++ toString a.shape.length ++ ")") ∧
    normalize_to_5d b none false = Except.ok b := by
  constructor
  · simp only [normalize_to_5d]
    rw [if_pos hmis]
  · have h2 : b.shape.length ≠ 2 := by omega
    have h3 : b.shape.length ≠ 3 := by omega
    have h4 : b.shape.length ≠ 4 := by omega
    have h5 : b.shape.length ≠ 5 := by omega
    simp only [normalize_to_5d]
    rw [if_neg h2, if_neg h3, if_neg h4, if_neg h5]

/-- Witness for C8 amended: a 2D array against a 5-letter label, and a
rank-6 array with no label. -/
theorem c8_normalize_errors_amended_witness :
    normalize_to_5d (⟨[4, 4], fun ix => ix.getD 0 0⟩ : NDArray Nat)
        (some "tzcyx") false =
      Except.error ("dims string length ("
        ++ toString ("tzcyx".data.map Char.toLower).length
        ++ ") must match data ndim ("
        ++ toString (⟨[4, 4], fun ix => ix.getD 0 0⟩ :
          NDArray Nat).shape.length ++ ")") ∧
    normalize_to_5d (⟨[1, 1, 1, 1, 1, 2], fun ix => ix.getD 0 0⟩ :
        NDArray Nat) none false =
      Except.ok ⟨[1, 1, 1, 1, 1, 2], fun ix => ix.getD 0 0⟩ :=
  c8_normalize_errors_amended (⟨[4, 4], fun ix => ix.getD 0 0⟩ : NDArray Nat)
    "tzcyx" (by decide) (⟨[1, 1, 1, 1, 1, 2], fun ix => ix.getD 0 0⟩ :
      NDArray Nat) (by norm_num)

/-- C9 counterexample: with two discovered time indices but no
`TimeInfo` metadata group, the loop never runs and the timestamp list
is empty rather than holding one null entry per time index. -/
theorem c9_timestamps_counterexample :
    ImarisReader.parseTimestamps (fun _ _ => none) none 2 = [] ∧
    (ImarisReader.parseTimestamps (fun _ _ => none) none 2).length ≠ 2 :=
  ⟨rfl, by decide⟩

/-- C9, amended: with the `TimeInfo` group present the list holds
exactly one entry per time index; an index whose two key spellings both
resolve to nothing gets a null entry, and an index whose resolved text
fails both datetime formats gets a null entry — never an exception.
With the group missing, the list is left empty. -/
theorem c9_timestamps_amended (strptime : Bool → String → Option ParsedTime)
    (g : String → Option RawAttr) (nT : Nat)
    (i1 : Nat) (hi1 : i1 < nT)
    (hm1 : ImarisReader.get_val (some g) ("TimePoint" ++ toString (i1 + 1))
      (fun s => some s) = AttrVal.null)
    (hm2 : ImarisReader.get_val (some g) ("TimePoint " ++ toString (i1 + 1))
      (fun s => some s) = AttrVal.null)
    (i2 : Nat) (hi2 : i2 < nT) (v : String)
    (hv : ImarisReader.get_val (some g) ("TimePoint" ++ toString (i2 + 1))
      (fun s => some s) = AttrVal.val v)
    (hf1 : strptime true v.trim = none) (hf2 : strptime false v.trim = none) :
    (ImarisReader.parseTimestamps strptime (some g) nT).length = nT ∧
    ImarisReader.parseTimestamps strptime none nT = [] ∧
    (ImarisReader.parseTimestamps strptime (some g) nT).get? i1 =
      some none ∧
    (ImarisReader.parseTimestamps strptime (some g) nT).get? i2 =
      some none := by
  refine ⟨?_, rfl, ?_, ?_⟩
  · rw [ImarisReader.parseTimestamps, List.length_map, List.length_range]
  · rw [ImarisReader.parseTimestamps, List.get?_eq_getElem?, List.getElem?_map,
      List.getElem?_range hi1]
    simp only [Option.map_some', hm1, hm2]
  · rw [ImarisReader.parseTimestamps, List.get?_eq_getElem?, List.getElem?_map,
      List.getElem?_range hi2]
    simp only [Option.map_some', hv, hf1, hf2]

/-- Witness for C9 amended: two time indices, the first with no
timestamp attribute, the second with an unparsable one, under a parser
that rejects everything. -/
theorem c9_timestamps_amended_witness :
    (ImarisReader.parseTimestamps (fun _ _ => none)
      (some (fun k => if k = "TimePoint2"
        then some (RawAttr.strScalar "garbage") else none)) 2).length = 2 ∧
    ImarisReader.parseTimestamps (fun _ _ => none) none 2 = [] ∧
    (ImarisReader.parseTimestamps (fun _ _ => none)
      (some (fun k => if k = "TimePoint2"
        then some (RawAttr.strScalar "garbage") else none)) 2).get? 0 =
      some none ∧
    (ImarisReader.parseTimestamps (fun _ _ => none)
      (some (fun k => if k = "TimePoint2"
        then some (RawAttr.strScalar "garbage") else none)) 2).get? 1 =
      some none :=
  c9_timestamps_amended (fun _ _ => none)
    (fun k => if k = "TimePoint2"
      then some (RawAttr.strScalar "garbage") else none) 2
    0 (by decide) (by decide) (by decide)
    1 (by decide) "garbage" (by decide) rfl rfl

theorem padSel_length {key : List Sel} (h : key.length ≤ 5) :
    (padSel key).length = 5 := by
  rw [padSel, List.length_append, List.length_replicate]
  omega

theorem padKey_map_toKeyElem (key : List Sel) :
    padKey (key.map Sel.toKeyElem) = (padSel key).map Sel.toKeyElem := by
  rw [padKey, padSel, List.map_append, List.map_replicate, List.length_map]
  rfl

theorem KeyElem.toSelD_toKeyElem (s : Sel) : (Sel.toKeyElem s).toSelD = s := by
  cases s <;> rfl

theorem KeyElem.isSlice_toKeyElem (s : Sel) :
    (Sel.toKeyElem s).isSlice = s.isSlice := by
  cases s <;> rfl

theorem mapM_toSel_of_no_ellipsis {l : List KeyElem}
    (h : KeyElem.ellipsis ∉ l) :
    l.mapM KeyElem.toSel = some (l.map KeyElem.toSelD) := by
  apply mapM_some
  intro e he
  cases e with
  | idx i => rfl
  | slice s => rfl
  | ellipsis => exact absurd he h

theorem npKeyOK_of_pointwise :
    ∀ (key : List Sel) (sh : List Nat), key.length = sh.length →
      (∀ i, i < sh.length → selOK (key.getD i Sel.all) (sh.getD i 0) = true) →
      npKeyOK key sh = true := by
  intro key
  induction key with
  | nil =>
    intro sh h _
    cases sh with
    | nil => rfl
    | cons n ns => simp at h
  | cons k ks ih =>
    intro sh h hp
    cases sh with
    | nil => simp at h
    | cons n ns =>
      rw [npKeyOK, Bool.and_eq_true]
      refine ⟨hp 0 (by simp), ?_⟩
      exact ih ns (by simpa using h)
        (fun i hi => hp (i + 1) (by simpa using hi))

theorem headD_eq_getD_zero (u : List Nat) (d : Nat) : u.headD d = u.getD 0 d := by
  cases u <;> rfl

theorem getD_succ_eq_tail_getD (u : List Nat) (m d : Nat) :
    u.getD (m + 1) d = u.tail.getD m d := by
  cases u <;> rfl

theorem keyShape_eq_filter :
    ∀ (key : List Sel) (sh : List Nat), key.length = sh.length →
      keyShape key sh = ((List.range key.length).filter
          (fun i => (key.getD i Sel.all).isSlice)).map
        (fun i => match key.getD i Sel.all with
          | .slice s => (s.select (sh.getD i 0)).length
          | .idx _ => 0) := by
  intro key
  induction key with
  | nil =>
    intro sh _
    rfl
  | cons k ks ih =>
    intro sh h
    cases sh with
    | nil => simp at h
    | cons n ns =>
      have hlen : ks.length = ns.length := by simpa using h
      have hpred : ∀ i ∈ List.range ks.length,
          ((fun i => ((k :: ks).getD i Sel.all).isSlice) ∘ Nat.succ) i =
            (fun i => (ks.getD i Sel.all).isSlice) i := by
        intro i _
        show ((k :: ks).getD (i + 1) Sel.all).isSlice = _
        rw [List.getD_cons_succ]
      have hfun : ∀ i ∈ (List.range ks.length).filter
          (fun i => (ks.getD i Sel.all).isSlice),
          ((fun i => match (k :: ks).getD i Sel.all with
            | Sel.slice s => (s.select ((n :: ns).getD i 0)).length
            | Sel.idx _ => 0) ∘ Nat.succ) i =
          (fun i => match ks.getD i Sel.all with
            | Sel.slice s => (s.select (ns.getD i 0)).length
            | Sel.idx _ => 0) i := by
        intro i _
        show (match (k :: ks).getD (i + 1) Sel.all with
          | Sel.slice s => (s.select ((n :: ns).getD (i + 1) 0)).length
          | Sel.idx _ => 0) = _
        rw [List.getD_cons_succ, List.getD_cons_succ]
      rw [List.length_cons, List.range_succ_eq_map, List.filter_cons]
      cases k with
      | idx v =>
        rw [if_neg (by rw [List.getD_cons_zero]; exact Bool.false_ne_true)]
        rw [List.filter_map, List.filter_congr hpred, List.map_map,
          List.map_congr_left hfun]
        rw [keyShape, ih ns hlen]
      | slice s =>
        rw [if_pos (by rw [List.getD_cons_zero]; rfl)]
        rw [List.filter_map, List.filter_congr hpred, List.map_cons,
          List.map_map, List.map_congr_left hfun]
        rw [keyShape, ih ns hlen]
        rfl

theorem keyMap_eq_map :
    ∀ (key : List Sel) (sh : List Nat) (u : List Nat), key.length = sh.length →
      keyMap key sh u = (List.range key.length).map (fun i =>
        match key.getD i Sel.all with
        | .idx v => (normIdx v (sh.getD i 0)).getD 0
        | .slice s => (s.select (sh.getD i 0)).getD
            (u.getD (slicesBefore key i) 0) 0) := by
  intro key
  induction key with
  | nil =>
    intro sh u _
    rfl
  | cons k ks ih =>
    intro sh u h
    cases sh with
    | nil => simp at h
    | cons n ns =>
      have hlen : ks.length = ns.length := by simpa using h
      rw [List.length_cons, List.range_succ_eq_map, List.map_cons, List.map_map]
      cases k with
      | idx v =>
        have hfun : ∀ i ∈ List.range ks.length,
            ((fun i => match (Sel.idx v :: ks).getD i Sel.all with
              | Sel.idx w => (normIdx w ((n :: ns).getD i 0)).getD 0
              | Sel.slice s => (s.select ((n :: ns).getD i 0)).getD
                  (u.getD (slicesBefore (Sel.idx v :: ks) i) 0) 0)
              ∘ Nat.succ) i =
            (fun i => match ks.getD i Sel.all with
              | Sel.idx w => (normIdx w (ns.getD i 0)).getD 0
              | Sel.slice s => (s.select (ns.getD i 0)).getD
                  (u.getD (slicesBefore ks i) 0) 0) i := by
          intro i _
          have hsb : slicesBefore (Sel.idx v :: ks) (i + 1) =
              slicesBefore ks i := by
            rw [slicesBefore, slicesBefore, List.take_succ_cons,
              List.filter_cons,
              if_neg (show ¬ (Sel.isSlice (Sel.idx v) = true) from
                Bool.false_ne_true)]
          show (match (Sel.idx v :: ks).getD (i + 1) Sel.all with
            | Sel.idx w => (normIdx w ((n :: ns).getD (i + 1) 0)).getD 0
            | Sel.slice s => (s.select ((n :: ns).getD (i + 1) 0)).getD
                (u.getD (slicesBefore (Sel.idx v :: ks) (i + 1)) 0) 0) = _
          rw [List.getD_cons_succ, List.getD_cons_succ, hsb]
        rw [List.map_congr_left hfun, keyMap, ih ns u hlen]
        rfl
      | slice s =>
        have hfun : ∀ i ∈ List.range ks.length,
            ((fun i => match (Sel.slice s :: ks).getD i Sel.all with
              | Sel.idx w => (normIdx w ((n :: ns).getD i 0)).getD 0
              | Sel.slice s2 => (s2.select ((n :: ns).getD i 0)).getD
                  (u.getD (slicesBefore (Sel.slice s :: ks) i) 0) 0)
              ∘ Nat.succ) i =
            (fun i => match ks.getD i Sel.all with
              | Sel.idx w => (normIdx w (ns.getD i 0)).getD 0
              | Sel.slice s2 => (s2.select (ns.getD i 0)).getD
                  (u.tail.getD (slicesBefore ks i) 0) 0) i := by
          intro i _
          have hsb : slicesBefore (Sel.slice s :: ks) (i + 1) =
              slicesBefore ks i + 1 := by
            rw [slicesBefore, slicesBefore, List.take_succ_cons,
              List.filter_cons,
              if_pos (show Sel.isSlice (Sel.slice s) = true from rfl),
              List.length_cons]
          show (match (Sel.slice s :: ks).getD (i + 1) Sel.all with
            | Sel.idx w => (normIdx w ((n :: ns).getD (i + 1) 0)).getD 0
            | Sel.slice s2 => (s2.select ((n :: ns).getD (i + 1) 0)).getD
                (u.getD (slicesBefore (Sel.slice s :: ks) (i + 1)) 0) 0) = _
          rw [List.getD_cons_succ, List.getD_cons_succ, hsb,
            getD_succ_eq_tail_getD]
        rw [List.map_congr_left hfun, keyMap, ih ns u.tail hlen]
        congr 2
        rw [headD_eq_getD_zero]
        have hsb0 : slicesBefore (Sel.slice s :: ks) 0 = 0 := rfl
        rw [hsb0]

theorem take_eq_map_getD_range {γ : Type} {l : List γ} {d : Nat} (x : γ)
    (hd : d ≤ l.length) :
    l.take d = (List.range d).map (fun i => l.getD i x) := by
  apply List.ext_getElem
  · rw [List.length_take, List.length_map, List.length_range]
    omega
  · intro n h1 h2
    rw [List.getElem_take, List.getElem_map, List.getElem_range,
      List.getD_eq_getElem]

theorem slicesBefore_eq {key : List Sel} {d : Nat} (hd : d ≤ key.length) :
    slicesBefore key d = ((List.range d).filter
      (fun i => (key.getD i Sel.all).isSlice)).length := by
  rw [slicesBefore, take_eq_map_getD_range Sel.all hd, List.filter_map,
    List.length_map]
  rfl

theorem indexOf_filter_range {p : Nat → Bool} :
    ∀ {n : Nat} {d : Nat}, d < n → p d = true →
      List.indexOf d ((List.range n).filter p) =
        ((List.range d).filter p).length := by
  intro n
  induction n with
  | zero => intro d hd _; omega
  | succ m ih =>
    intro d hd hpd
    rw [List.range_succ, List.filter_append]
    by_cases hdm : d < m
    · rw [List.indexOf_append_of_mem]
      · exact ih hdm hpd
      · rw [List.mem_filter]
        exact ⟨List.mem_range.mpr hdm, hpd⟩
    · have hdm2 : d = m := by omega
      subst hdm2
      rw [List.indexOf_append_of_not_mem]
      · rw [List.filter_cons, if_pos hpd]
        rw [List.indexOf_cons_self]
        omega
      · intro hmem
        rw [List.mem_filter, List.mem_range] at hmem
        omega

theorem indexOf_map_of_injOn {γ δ : Type} [DecidableEq γ] [DecidableEq δ]
    {f : γ → δ} :
    ∀ {l : List γ} {a : γ}, a ∈ l →
      (∀ x ∈ l, ∀ y ∈ l, f x = f y → x = y) →
      List.indexOf (f a) (l.map f) = List.indexOf a l := by
  intro l
  induction l with
  | nil => intro a ha _; exact absurd ha (List.not_mem_nil a)
  | cons b l ih =>
    intro a ha hinj
    rw [List.map_cons]
    by_cases hba : b = a
    · subst hba
      rw [List.indexOf_cons_self, List.indexOf_cons_self]
    · have hfba : f b ≠ f a := fun he =>
        hba (hinj b (List.mem_cons_self b l) a ha he)
      have ha2 : a ∈ l := by
        rcases List.mem_cons.mp ha with h | h
        · exact absurd h.symm hba
        · exact h
      rw [List.indexOf_cons_ne _ hfba, List.indexOf_cons_ne _ hba]
      rw [ih ha2 (fun x hx y hy => hinj x (List.mem_cons_of_mem b hx)
        y (List.mem_cons_of_mem b hy))]

theorem resPerm_identity_iff {tD : List Nat} (hnd : tD.Nodup) :
    TransposedProxy.resPerm tD = List.range tD.length ↔
      List.Sorted (fun a b => a ≤ b) tD := by
  have hps : List.Sorted (fun a b => a ≤ b)
      (List.insertionSort (fun a b => a ≤ b) tD) :=
    List.sorted_insertionSort _ _
  have hpp : (List.insertionSort (fun a b => a ≤ b) tD).Perm tD :=
    List.perm_insertionSort _ _
  constructor
  · intro hid
    have hplen : (List.insertionSort (fun a b => a ≤ b) tD).length =
        tD.length := hpp.length_eq
    have heq : List.insertionSort (fun a b => a ≤ b) tD = tD := by
      apply List.ext_getElem hplen
      intro k h1 h2
      have hmem : tD[k] ∈ List.insertionSort (fun a b => a ≤ b) tD :=
        hpp.mem_iff.mpr (List.getElem_mem h2)
      have hidx : List.indexOf tD[k]
          (List.insertionSort (fun a b => a ≤ b) tD) = k := by
        have hk := congrArg (fun l => l.getD k 0) hid
        simp only [TransposedProxy.resPerm] at hk
        rw [List.getD_eq_getElem _ _ (by rw [List.length_map]; exact h2),
          List.getElem_map, List.getD_eq_getElem _ _
            (by rw [List.length_range]; exact h2),
          List.getElem_range] at hk
        exact hk
      have hlt : List.indexOf tD[k]
          (List.insertionSort (fun a b => a ≤ b) tD) <
          (List.insertionSort (fun a b => a ≤ b) tD).length :=
        List.indexOf_lt_length.mpr hmem
      have := List.indexOf_get hlt
      rw [List.get_eq_getElem] at this
      rw [← this]
      congr 1
      exact hidx.symm
    rw [← heq]
    exact hps
  · intro hsorted
    have heq : List.insertionSort (fun a b => a ≤ b) tD = tD :=
      List.eq_of_perm_of_sorted hpp hps hsorted
    simp only [TransposedProxy.resPerm]
    rw [heq]
    apply List.ext_getElem
    · rw [List.length_map, List.length_range]
    · intro k h1 h2
      rw [List.getElem_map, List.getElem_range]
      have hg := List.get_indexOf hnd ⟨k, by
        rw [List.length_map] at h1
        exact h1⟩
      rw [List.get_eq_getElem] at hg
      exact hg

theorem getD_map_toKeyElem (l : List Sel) (n : Nat) :
    (l.map Sel.toKeyElem).getD n KeyElem.all =
      Sel.toKeyElem (l.getD n Sel.all) := by
  induction l generalizing n with
  | nil => cases n <;> rfl
  | cons a l ih =>
    cases n with
    | zero => rfl
    | succ m =>
      rw [List.map_cons, List.getD_cons_succ, List.getD_cons_succ]
      exact ih m

/-- C3: indexing a permuted view (built over the memory-backed 5D
proxy) with a key of integer and range selectors succeeds, the result's
rank is the number of range selectors of the padded caller key, and the
result is equivalent to the view-order specification model, whose axes
are the surviving view axes in the view's declared order; moreover the
final transpose permutation is the identity exactly when the surviving
canonical axes are already in ascending order. -/
theorem c3_permuted_view_order {α : Type} (a : NDArray α)
    (h5 : a.shape.length = 5) (perm : List Nat)
    (hperm : perm.Perm (List.range 5)) (key : List Sel)
    (hklen : key.length ≤ 5)
    (hval : ∀ i, i < 5 → selOK ((padSel key).getD i Sel.all)
      ((TransposedProxy.shape a.shape perm).getD i 0) = true) :
    (∃ res, TransposedProxy.getItem (Numpy5DProxy.getItem a) perm
        (key.map Sel.toKeyElem) = some res ∧
      res.shape.length = ((padSel key).filter Sel.isSlice).length ∧
      res.Equiv (transposedViewSpec a perm (padSel key))) ∧
    (∃ tD, TransposedProxy.targetDims perm
        (padKey (key.map Sel.toKeyElem)) = some tD ∧
      (TransposedProxy.resPerm tD = List.range tD.length ↔
        List.Sorted (fun x y => x ≤ y) tD)) := by
  have hplen : perm.length = 5 := hperm.length_eq.trans (List.length_range 5)
  have hpnodup : perm.Nodup := hperm.nodup_iff.mpr (List.nodup_range 5)
  have hmemD : ∀ d, d < 5 → d ∈ perm := fun d hd =>
    hperm.mem_iff.mpr (List.mem_range.mpr hd)
  have hgetlt : ∀ i, i < 5 → perm.getD i 0 < 5 := by
    intro i hi
    have hi2 : i < perm.length := by omega
    have hmm : perm.getD i 0 ∈ perm := by
      rw [List.getD_eq_getElem _ _ hi2]
      exact List.getElem_mem hi2
    exact List.mem_range.mp (hperm.mem_iff.mp hmm)
  have hidxlt : ∀ d, d < 5 → List.indexOf d perm < 5 := by
    intro d hd
    have := List.indexOf_lt_length.mpr (hmemD d hd)
    omega
  have hidxget : ∀ d, d < 5 → perm.getD (List.indexOf d perm) 0 = d := by
    intro d hd
    have hlt : List.indexOf d perm < perm.length :=
      List.indexOf_lt_length.mpr (hmemD d hd)
    rw [List.getD_eq_getElem _ _ hlt]
    have hg := List.indexOf_get hlt
    rw [List.get_eq_getElem] at hg
    exact hg
  have hgetidx : ∀ i, i < 5 → List.indexOf (perm.getD i 0) perm = i := by
    intro i hi
    have hi2 : i < perm.length := by omega
    have hg := List.get_indexOf hpnodup ⟨i, hi2⟩
    rw [List.get_eq_getElem] at hg
    rw [List.getD_eq_getElem _ _ hi2]
    exact hg
  have hk5len : (padSel key).length = 5 := padSel_length hklen
  have hview : ∀ i, i < 5 → (TransposedProxy.shape a.shape perm).getD i 0 =
      a.shape.getD (perm.getD i 0) 0 := by
    intro i hi
    have hi2 : i < perm.length := by omega
    rw [TransposedProxy.shape,
      List.getD_eq_getElem _ _ (by rw [List.length_map]; exact hi2),
      List.getElem_map, List.getD_eq_getElem _ _ hi2]
  have hKElen : (TransposedProxy.mapKey perm (key.map Sel.toKeyElem)).length = 5 := by
    simp only [TransposedProxy.mapKey]
    rw [foldl_set_length, List.length_replicate]
  have hKEget : ∀ d, d < 5 →
      (TransposedProxy.mapKey perm (key.map Sel.toKeyElem))[d]? =
        some (Sel.toKeyElem ((padSel key).getD (List.indexOf d perm)
          Sel.all)) := by
    intro d hd
    have hjlt : List.indexOf d perm < perm.length := by
      have := hidxlt d hd
      omega
    have hj2 : List.indexOf d perm < (padKey (key.map Sel.toKeyElem)).length := by
      rw [padKey_map_toKeyElem, List.length_map, hk5len]
      exact hidxlt d hd
    have hj3 : perm.getD (List.indexOf d perm) 0 <
        (List.replicate 5 KeyElem.all).length := by
      rw [List.length_replicate, hidxget d hd]
      exact hd
    have hj4 : List.indexOf d perm < (padSel key).length := by
      rw [hk5len]
      exact hidxlt d hd
    have hfold := foldl_set_getElem?_at hpnodup hjlt hj2 hj3
    rw [hidxget d hd] at hfold
    have hstep : (TransposedProxy.mapKey perm (key.map Sel.toKeyElem))[d]? =
        (padKey (key.map Sel.toKeyElem))[List.indexOf d perm]? := by
      simp only [TransposedProxy.mapKey]
      exact hfold
    rw [hstep, padKey_map_toKeyElem, List.getElem?_map,
      List.getElem?_eq_getElem hj4, Option.map_some',
      List.getD_eq_getElem _ _ hj4]
  have hKsellen : ((TransposedProxy.mapKey perm
      (key.map Sel.toKeyElem)).map KeyElem.toSelD).length = 5 := by
    rw [List.length_map]
    exact hKElen
  have hKselget : ∀ d, d < 5 →
      ((TransposedProxy.mapKey perm (key.map Sel.toKeyElem)).map
        KeyElem.toSelD).getD d Sel.all =
      (padSel key).getD (List.indexOf d perm) Sel.all := by
    intro d hd
    rw [List.getD_eq_getElem?_getD, List.getElem?_map, hKEget d hd,
      Option.map_some', KeyElem.toSelD_toKeyElem, Option.getD_some]
  have hnoell : KeyElem.ellipsis ∉
      TransposedProxy.mapKey perm (key.map Sel.toKeyElem) := by
    intro hmem
    obtain ⟨n, hn, he⟩ := List.mem_iff_getElem.mp hmem
    have hn5 : n < 5 := by rw [hKElen] at hn; exact hn
    have hq := hKEget n hn5
    rw [List.getElem?_eq_getElem hn, he] at hq
    exact Sel.toKeyElem_ne_ellipsis _ (Option.some.inj hq).symm
  have hnorm : Numpy5DProxy.normalizeKey
      (TransposedProxy.mapKey perm (key.map Sel.toKeyElem)) =
      TransposedProxy.mapKey perm (key.map Sel.toKeyElem) :=
    Numpy5DProxy.normalizeKey_keeps_five hKElen hnoell
  have hmapM := mapM_toSel_of_no_ellipsis hnoell
  have hOK : npKeyOK ((TransposedProxy.mapKey perm
      (key.map Sel.toKeyElem)).map KeyElem.toSelD) a.shape = true := by
    apply npKeyOK_of_pointwise _ _ (by rw [hKsellen, h5])
    intro i hi
    rw [h5] at hi
    rw [hKselget i hi]
    have hv := hval (List.indexOf i perm) (hidxlt i hi)
    rw [hview (List.indexOf i perm) (hidxlt i hi), hidxget i hi] at hv
    exact hv
  have hget : Numpy5DProxy.getItem a
      (TransposedProxy.mapKey perm (key.map Sel.toKeyElem)) =
      some ⟨keyShape ((TransposedProxy.mapKey perm
          (key.map Sel.toKeyElem)).map KeyElem.toSelD) a.shape,
        fun ix => a.data (keyMap ((TransposedProxy.mapKey perm
          (key.map Sel.toKeyElem)).map KeyElem.toSelD) a.shape ix)⟩ := by
    simp only [Numpy5DProxy.getItem, hnorm, hmapM, Option.some_bind]
    rw [npIndex, if_pos hOK]
  have htD : TransposedProxy.targetDims perm
      (padKey (key.map Sel.toKeyElem)) =
      some ((keptView (padSel key)).map (fun i => perm.getD i 0)) := by
    simp only [TransposedProxy.targetDims]
    have hkE : (List.range (padKey (key.map Sel.toKeyElem)).length).filter
        (fun i => ((padKey (key.map Sel.toKeyElem)).getD i
          KeyElem.all).isSlice) = keptView (padSel key) := by
      rw [padKey_map_toKeyElem, List.length_map, hk5len, keptView]
      apply List.filter_congr
      intro i _
      show (((padSel key).map Sel.toKeyElem).getD i KeyElem.all).isSlice =
        ((padSel key).getD i Sel.all).isSlice
      rw [getD_map_toKeyElem, KeyElem.isSlice_toKeyElem]
    rw [hkE]
    have hall : (keptView (padSel key)).all (fun i => i < perm.length) = true := by
      rw [List.all_eq_true]
      intro i hi
      simp only [decide_eq_true_eq]
      rw [hplen]
      exact List.mem_range.mp (List.mem_filter.mp hi).1
    rw [if_pos hall]
  have hkeptmem : ∀ i ∈ keptView (padSel key),
      i < 5 ∧ ((padSel key).getD i Sel.all).isSlice = true := by
    intro i hi
    rcases List.mem_filter.mp hi with ⟨h1, h2⟩
    exact ⟨List.mem_range.mp h1, h2⟩
  have hinjkept : ∀ x ∈ keptView (padSel key), ∀ y ∈ keptView (padSel key),
      perm.getD x 0 = perm.getD y 0 → x = y := by
    intro x hx y hy hxy
    have hx5 := (hkeptmem x hx).1
    have hy5 := (hkeptmem y hy).1
    calc x = List.indexOf (perm.getD x 0) perm := (hgetidx x hx5).symm
      _ = List.indexOf (perm.getD y 0) perm := by rw [hxy]
      _ = y := hgetidx y hy5
  have htDnodup : ((keptView (padSel key)).map
      (fun i => perm.getD i 0)).Nodup :=
    List.Nodup.map_on hinjkept ((List.nodup_range 5).filter _)
  have hkeptCnodup : ((List.range 5).filter (fun e =>
      ((padSel key).getD (List.indexOf e perm) Sel.all).isSlice)).Nodup :=
    (List.nodup_range 5).filter _
  have hkeptCsorted : List.Sorted (fun x y => x ≤ y)
      ((List.range 5).filter (fun e =>
        ((padSel key).getD (List.indexOf e perm) Sel.all).isSlice)) :=
    ((List.sorted_lt_range 5).filter _).le_of_lt
  have htDmemiff : ∀ d, d ∈ (keptView (padSel key)).map
      (fun i => perm.getD i 0) ↔ d ∈ (List.range 5).filter (fun e =>
        ((padSel key).getD (List.indexOf e perm) Sel.all).isSlice) := by
    intro d
    constructor
    · intro hd
      obtain ⟨i, hik, hii⟩ := List.mem_map.mp hd
      rcases hkeptmem i hik with ⟨hi5, hsl⟩
      rw [List.mem_filter]
      subst hii
      refine ⟨List.mem_range.mpr (hgetlt i hi5), ?_⟩
      show ((padSel key).getD (List.indexOf (perm.getD i 0) perm)
        Sel.all).isSlice = true
      rw [hgetidx i hi5]
      exact hsl
    · intro hd
      rw [List.mem_filter, List.mem_range] at hd
      obtain ⟨hd5, hsl⟩ := hd
      apply List.mem_map.mpr
      refine ⟨List.indexOf d perm, ?_, hidxget d hd5⟩
      rw [keptView, List.mem_filter]
      exact ⟨List.mem_range.mpr (hidxlt d hd5), hsl⟩
  have htDperm : ((keptView (padSel key)).map (fun i => perm.getD i 0)).Perm
      ((List.range 5).filter (fun e =>
        ((padSel key).getD (List.indexOf e perm) Sel.all).isSlice)) :=
    (List.perm_ext_iff_of_nodup htDnodup hkeptCnodup).mpr htDmemiff
  have htDsort_eq : List.insertionSort (fun x y => x ≤ y)
      ((keptView (padSel key)).map (fun i => perm.getD i 0)) =
      (List.range 5).filter (fun e =>
        ((padSel key).getD (List.indexOf e perm) Sel.all).isSlice) :=
    List.eq_of_perm_of_sorted
      ((List.perm_insertionSort _ _).trans htDperm)
      (List.sorted_insertionSort _ _) hkeptCsorted
  have hkeptClen : ((List.range 5).filter (fun e =>
      ((padSel key).getD (List.indexOf e perm) Sel.all).isSlice)).length =
      ((keptView (padSel key)).map (fun i => perm.getD i 0)).length :=
    htDperm.length_eq.symm
  have hshapeC : keyShape ((TransposedProxy.mapKey perm
      (key.map Sel.toKeyElem)).map KeyElem.toSelD) a.shape =
      ((List.range 5).filter (fun e =>
        ((padSel key).getD (List.indexOf e perm) Sel.all).isSlice)).map
        (fun d => match (padSel key).getD (List.indexOf d perm) Sel.all with
          | Sel.slice s => (s.select (a.shape.getD d 0)).length
          | Sel.idx _ => 0) := by
    rw [keyShape_eq_filter _ _ (by rw [hKsellen, h5]), hKsellen]
    have hfc : (List.range 5).filter (fun i =>
        (((TransposedProxy.mapKey perm (key.map Sel.toKeyElem)).map
          KeyElem.toSelD).getD i Sel.all).isSlice) =
        (List.range 5).filter (fun e =>
          ((padSel key).getD (List.indexOf e perm) Sel.all).isSlice) := by
      apply List.filter_congr
      intro i hi
      show (((TransposedProxy.mapKey perm (key.map Sel.toKeyElem)).map
          KeyElem.toSelD).getD i Sel.all).isSlice =
        ((padSel key).getD (List.indexOf i perm) Sel.all).isSlice
      rw [hKselget i (List.mem_range.mp hi)]
    rw [hfc]
    apply List.map_congr_left
    intro d hd
    have hd5 : d < 5 := List.mem_range.mp (List.mem_filter.mp hd).1
    show (match ((TransposedProxy.mapKey perm (key.map Sel.toKeyElem)).map
        KeyElem.toSelD).getD d Sel.all with
      | Sel.slice s => (s.select (a.shape.getD d 0)).length
      | Sel.idx _ => 0) =
      (match (padSel key).getD (List.indexOf d perm) Sel.all with
      | Sel.slice s => (s.select (a.shape.getD d 0)).length
      | Sel.idx _ => 0)
    rw [hKselget d hd5]
  have hfiltlen : ((padSel key).filter Sel.isSlice).length =
      (keptView (padSel key)).length := by
    have htake := take_eq_map_getD_range Sel.all (le_refl (padSel key).length)
    rw [List.take_length] at htake
    conv_lhs => rw [htake]
    rw [List.filter_map, List.length_map, hk5len, keptView]
    rfl
  have hsbC : ∀ d, d < 5 →
      ((padSel key).getD (List.indexOf d perm) Sel.all).isSlice = true →
      slicesBefore ((TransposedProxy.mapKey perm
        (key.map Sel.toKeyElem)).map KeyElem.toSelD) d =
      List.indexOf d ((List.range 5).filter (fun e =>
        ((padSel key).getD (List.indexOf e perm) Sel.all).isSlice)) := by
    intro d hd5 hsl
    rw [slicesBefore_eq (by rw [hKsellen]; omega)]
    have hfc2 : (List.range d).filter (fun i =>
        (((TransposedProxy.mapKey perm (key.map Sel.toKeyElem)).map
          KeyElem.toSelD).getD i Sel.all).isSlice) =
        (List.range d).filter (fun e =>
          ((padSel key).getD (List.indexOf e perm) Sel.all).isSlice) := by
      apply List.filter_congr
      intro i hi
      show (((TransposedProxy.mapKey perm (key.map Sel.toKeyElem)).map
          KeyElem.toSelD).getD i Sel.all).isSlice =
        ((padSel key).getD (List.indexOf i perm) Sel.all).isSlice
      rw [hKselget i (by have := List.mem_range.mp hi; omega)]
    rw [hfc2, ← indexOf_filter_range hd5 hsl]
  have hsbV : ∀ i, i < 5 →
      ((padSel key).getD i Sel.all).isSlice = true →
      slicesBefore (padSel key) i =
      List.indexOf i (keptView (padSel key)) := by
    intro i hi5 hsl
    rw [slicesBefore_eq (by rw [hk5len]; omega), keptView]
    exact (indexOf_filter_range hi5 hsl).symm
  have hidxtD : ∀ d, d < 5 → List.indexOf d perm ∈ keptView (padSel key) →
      List.indexOf d ((keptView (padSel key)).map (fun i => perm.getD i 0)) =
      List.indexOf (List.indexOf d perm) (keptView (padSel key)) := by
    intro d hd5 hik
    have hres := indexOf_map_of_injOn hik hinjkept
    rw [hidxget d hd5] at hres
    exact hres
  have hGdata : ∀ j, (transposedViewSpec a perm (padSel key)).data j =
      a.data ((List.range 5).map (fun d =>
        match (padSel key).getD (List.indexOf d perm) Sel.all with
        | Sel.idx v => (normIdx v (a.shape.getD d 0)).getD 0
        | Sel.slice s => (s.select (a.shape.getD d 0)).getD
            (j.getD (List.indexOf d ((keptView (padSel key)).map
              (fun i => perm.getD i 0))) 0) 0)) := by
    intro j
    show a.data _ = a.data _
    congr 1
    apply List.map_congr_left
    intro d hd
    have hd5 : d < 5 := List.mem_range.mp hd
    show (match (padSel key).getD (List.indexOf d perm) Sel.all with
      | Sel.idx v => (normIdx v (a.shape.getD d 0)).getD 0
      | Sel.slice s => (s.select (a.shape.getD d 0)).getD
          (j.getD (slicesBefore (padSel key) (List.indexOf d perm)) 0) 0) =
      (match (padSel key).getD (List.indexOf d perm) Sel.all with
      | Sel.idx v => (normIdx v (a.shape.getD d 0)).getD 0
      | Sel.slice s => (s.select (a.shape.getD d 0)).getD
          (j.getD (List.indexOf d ((keptView (padSel key)).map
            (fun i => perm.getD i 0))) 0) 0)
    cases hsel : (padSel key).getD (List.indexOf d perm) Sel.all with
    | idx v => rfl
    | slice s =>
      have hsl2 : ((padSel key).getD (List.indexOf d perm)
          Sel.all).isSlice = true := by rw [hsel]; rfl
      have hik : List.indexOf d perm ∈ keptView (padSel key) := by
        rw [keptView, List.mem_filter]
        exact ⟨List.mem_range.mpr (hidxlt d hd5), hsl2⟩
      rw [hsbV (List.indexOf d perm) (hidxlt d hd5) hsl2,
        ← hidxtD d hd5 hik]
  have hRdata : ∀ w, a.data (keyMap ((TransposedProxy.mapKey perm
      (key.map Sel.toKeyElem)).map KeyElem.toSelD) a.shape w) =
      a.data ((List.range 5).map (fun d =>
        match (padSel key).getD (List.indexOf d perm) Sel.all with
        | Sel.idx v => (normIdx v (a.shape.getD d 0)).getD 0
        | Sel.slice s => (s.select (a.shape.getD d 0)).getD
            (w.getD (List.indexOf d ((List.range 5).filter (fun e =>
              ((padSel key).getD (List.indexOf e perm)
                Sel.all).isSlice))) 0) 0)) := by
    intro w
    rw [keyMap_eq_map _ _ _ (by rw [hKsellen, h5]), hKsellen]
    congr 1
    apply List.map_congr_left
    intro d hd
    have hd5 : d < 5 := List.mem_range.mp hd
    show (match ((TransposedProxy.mapKey perm (key.map Sel.toKeyElem)).map
        KeyElem.toSelD).getD d Sel.all with
      | Sel.idx v => (normIdx v (a.shape.getD d 0)).getD 0
      | Sel.slice s => (s.select (a.shape.getD d 0)).getD
          (w.getD (slicesBefore ((TransposedProxy.mapKey perm
            (key.map Sel.toKeyElem)).map KeyElem.toSelD) d) 0) 0) =
      (match (padSel key).getD (List.indexOf d perm) Sel.all with
      | Sel.idx v => (normIdx v (a.shape.getD d 0)).getD 0
      | Sel.slice s => (s.select (a.shape.getD d 0)).getD
          (w.getD (List.indexOf d ((List.range 5).filter (fun e =>
            ((padSel key).getD (List.indexOf e perm)
              Sel.all).isSlice))) 0) 0)
    rw [hKselget d hd5]
    cases hsel : (padSel key).getD (List.indexOf d perm) Sel.all with
    | idx v => rfl
    | slice s =>
      rw [hsbC d hd5 (by rw [hsel]; rfl)]
  have hptwise : ∀ (u v : List Nat),
      (∀ d, d < 5 →
        ((padSel key).getD (List.indexOf d perm) Sel.all).isSlice = true →
        u.getD (List.indexOf d ((List.range 5).filter (fun e =>
          ((padSel key).getD (List.indexOf e perm) Sel.all).isSlice))) 0 =
        v.getD (List.indexOf d ((keptView (padSel key)).map
          (fun i => perm.getD i 0))) 0) →
      (List.range 5).map (fun d =>
        match (padSel key).getD (List.indexOf d perm) Sel.all with
        | Sel.idx v => (normIdx v (a.shape.getD d 0)).getD 0
        | Sel.slice s => (s.select (a.shape.getD d 0)).getD
            (u.getD (List.indexOf d ((List.range 5).filter (fun e =>
              ((padSel key).getD (List.indexOf e perm)
                Sel.all).isSlice))) 0) 0) =
      (List.range 5).map (fun d =>
        match (padSel key).getD (List.indexOf d perm) Sel.all with
        | Sel.idx v => (normIdx v (a.shape.getD d 0)).getD 0
        | Sel.slice s => (s.select (a.shape.getD d 0)).getD
            (v.getD (List.indexOf d ((keptView (padSel key)).map
              (fun i => perm.getD i 0))) 0) 0) := by
    intro u v huv
    apply List.map_congr_left
    intro d hd
    have hd5 : d < 5 := List.mem_range.mp hd
    show (match (padSel key).getD (List.indexOf d perm) Sel.all with
      | Sel.idx w => (normIdx w (a.shape.getD d 0)).getD 0
      | Sel.slice s => (s.select (a.shape.getD d 0)).getD
          (u.getD (List.indexOf d ((List.range 5).filter (fun e =>
            ((padSel key).getD (List.indexOf e perm)
              Sel.all).isSlice))) 0) 0) =
      (match (padSel key).getD (List.indexOf d perm) Sel.all with
      | Sel.idx w => (normIdx w (a.shape.getD d 0)).getD 0
      | Sel.slice s => (s.select (a.shape.getD d 0)).getD
          (v.getD (List.indexOf d ((keptView (padSel key)).map
            (fun i => perm.getD i 0))) 0) 0)
    cases hsel : (padSel key).getD (List.indexOf d perm) Sel.all with
    | idx w => rfl
    | slice s =>
      rw [huv d hd5 (by rw [hsel]; rfl)]
  have hspec_shape : (transposedViewSpec a perm (padSel key)).shape =
      ((keptView (padSel key)).map (fun i => perm.getD i 0)).map
        (fun d => match (padSel key).getD (List.indexOf d perm) Sel.all with
          | Sel.slice s => (s.select (a.shape.getD d 0)).length
          | Sel.idx _ => 0) := by
    show (keptView (padSel key)).map _ = _
    rw [List.map_map]
    apply List.map_congr_left
    intro i hik
    have hi5 := (hkeptmem i hik).1
    show (match (padSel key).getD i Sel.all with
      | Sel.slice s => (s.select (a.shape.getD (perm.getD i 0) 0)).length
      | Sel.idx _ => 0) =
      (match (padSel key).getD (List.indexOf (perm.getD i 0) perm) Sel.all with
      | Sel.slice s => (s.select (a.shape.getD (perm.getD i 0) 0)).length
      | Sel.idx _ => 0)
    rw [hgetidx i hi5]
  have hrplen : (TransposedProxy.resPerm ((keptView (padSel key)).map
      (fun i => perm.getD i 0))).length =
      ((keptView (padSel key)).map (fun i => perm.getD i 0)).length := by
    simp only [TransposedProxy.resPerm]
    rw [List.length_map]
  have hrp : TransposedProxy.resPerm ((keptView (padSel key)).map
      (fun i => perm.getD i 0)) =
      ((keptView (padSel key)).map (fun i => perm.getD i 0)).map
        (fun d => List.indexOf d ((List.range 5).filter (fun e =>
          ((padSel key).getD (List.indexOf e perm) Sel.all).isSlice))) := by
    simp only [TransposedProxy.resPerm]
    rw [htDsort_eq]
  refine ⟨?_, ⟨(keptView (padSel key)).map (fun i => perm.getD i 0), htD,
    resPerm_identity_iff htDnodup⟩⟩
  simp only [TransposedProxy.getItem, hget, Option.some_bind, htD]
  by_cases hid : TransposedProxy.resPerm ((keptView (padSel key)).map
      (fun i => perm.getD i 0)) =
      List.range (TransposedProxy.resPerm ((keptView (padSel key)).map
        (fun i => perm.getD i 0))).length
  · rw [if_neg (not_ne_iff.mpr hid)]
    have hsorted : List.Sorted (fun x y => x ≤ y)
        ((keptView (padSel key)).map (fun i => perm.getD i 0)) := by
      rw [hrplen] at hid
      exact (resPerm_identity_iff htDnodup).mp hid
    have htDeq : (keptView (padSel key)).map (fun i => perm.getD i 0) =
        (List.range 5).filter (fun e =>
          ((padSel key).getD (List.indexOf e perm) Sel.all).isSlice) := by
      have h1 : List.insertionSort (fun x y => x ≤ y)
          ((keptView (padSel key)).map (fun i => perm.getD i 0)) =
          (keptView (padSel key)).map (fun i => perm.getD i 0) :=
        List.eq_of_perm_of_sorted (List.perm_insertionSort _ _)
          (List.sorted_insertionSort _ _) hsorted
      rw [← h1, htDsort_eq]
    refine ⟨_, rfl, ?_, ?_, ?_⟩
    · show (keyShape _ a.shape).length = _
      rw [hshapeC, List.length_map, hkeptClen, List.length_map, hfiltlen]
    · show keyShape _ a.shape = _
      rw [hshapeC, hspec_shape, htDeq]
    · intro ix _
      show a.data (keyMap _ a.shape ix) = _
      rw [hRdata ix, hGdata ix]
      exact congrArg a.data (hptwise ix ix (fun d hd5 hsl => by rw [htDeq]))
  · rw [if_pos hid]
    have hreslen : (keyShape ((TransposedProxy.mapKey perm
        (key.map Sel.toKeyElem)).map KeyElem.toSelD) a.shape).length =
        ((keptView (padSel key)).map (fun i => perm.getD i 0)).length := by
      rw [hshapeC, List.length_map, hkeptClen]
    have hcond : (TransposedProxy.resPerm ((keptView (padSel key)).map
        (fun i => perm.getD i 0))).length =
        (keyShape ((TransposedProxy.mapKey perm
          (key.map Sel.toKeyElem)).map KeyElem.toSelD) a.shape).length ∧
        (List.range (keyShape ((TransposedProxy.mapKey perm
          (key.map Sel.toKeyElem)).map KeyElem.toSelD) a.shape).length).all
          (fun m => m ∈ TransposedProxy.resPerm ((keptView (padSel key)).map
            (fun i => perm.getD i 0))) = true := by
      constructor
      · rw [hrplen, hreslen]
      · rw [List.all_eq_true]
        intro m hm
        simp only [decide_eq_true_eq]
        rw [List.mem_range, hreslen, ← hkeptClen] at hm
        have hmem2 : ((List.range 5).filter (fun e =>
            ((padSel key).getD (List.indexOf e perm) Sel.all).isSlice))[m]
            ∈ (keptView (padSel key)).map (fun i => perm.getD i 0) :=
          (htDmemiff _).mpr (List.getElem_mem hm)
        have hidx : List.indexOf (((List.range 5).filter (fun e =>
            ((padSel key).getD (List.indexOf e perm) Sel.all).isSlice))[m])
            ((List.range 5).filter (fun e =>
              ((padSel key).getD (List.indexOf e perm)
                Sel.all).isSlice)) = m := by
          have hg := List.get_indexOf hkeptCnodup ⟨m, hm⟩
          rw [List.get_eq_getElem] at hg
          exact hg
        rw [hrp]
        exact List.mem_map.mpr ⟨_, hmem2, hidx⟩
    rw [npTranspose, if_pos hcond]
    refine ⟨_, rfl, ?_, ?_, ?_⟩
    · show ((TransposedProxy.resPerm _).map (fun p =>
        (keyShape _ a.shape).getD p 0)).length = _
      rw [List.length_map, hrplen, List.length_map, hfiltlen]
    · show (TransposedProxy.resPerm _).map (fun p =>
        (keyShape _ a.shape).getD p 0) = _
      rw [hrp, List.map_map, hspec_shape]
      apply List.map_congr_left
      intro d hd
      have hdC : d ∈ (List.range 5).filter (fun e =>
          ((padSel key).getD (List.indexOf e perm) Sel.all).isSlice) :=
        (htDmemiff d).mp hd
      have hq : List.indexOf d ((List.range 5).filter (fun e =>
          ((padSel key).getD (List.indexOf e perm) Sel.all).isSlice)) <
          ((List.range 5).filter (fun e =>
            ((padSel key).getD (List.indexOf e perm)
              Sel.all).isSlice)).length :=
        List.indexOf_lt_length.mpr hdC
      show (keyShape ((TransposedProxy.mapKey perm
          (key.map Sel.toKeyElem)).map KeyElem.toSelD) a.shape).getD
          (List.indexOf d ((List.range 5).filter (fun e =>
            ((padSel key).getD (List.indexOf e perm)
              Sel.all).isSlice))) 0 =
        (match (padSel key).getD (List.indexOf d perm) Sel.all with
        | Sel.slice s => (s.select (a.shape.getD d 0)).length
        | Sel.idx _ => 0)
      rw [hshapeC, List.getD_eq_getElem _ _ (by
          rw [List.length_map]
          exact hq), List.getElem_map]
      have hgd := List.indexOf_get hq
      rw [List.get_eq_getElem] at hgd
      rw [hgd]
    · intro ix _
      simp only [transposeArr]
      rw [hrp, hRdata, hGdata ix]
      refine congrArg a.data (hptwise _ ix ?_)
      intro d hd5 hsl
      have hdC : d ∈ (List.range 5).filter (fun e =>
          ((padSel key).getD (List.indexOf e perm) Sel.all).isSlice) := by
        rw [List.mem_filter]
        exact ⟨List.mem_range.mpr hd5, hsl⟩
      have hdT : d ∈ (keptView (padSel key)).map (fun i => perm.getD i 0) :=
        (htDmemiff d).mpr hdC
      have hq : List.indexOf d ((List.range 5).filter (fun e =>
          ((padSel key).getD (List.indexOf e perm) Sel.all).isSlice)) <
          ((List.range 5).filter (fun e =>
            ((padSel key).getD (List.indexOf e perm)
              Sel.all).isSlice)).length :=
        List.indexOf_lt_length.mpr hdC
      have hm0 : List.indexOf d ((keptView (padSel key)).map
          (fun i => perm.getD i 0)) <
          ((keptView (padSel key)).map (fun i => perm.getD i 0)).length :=
        List.indexOf_lt_length.mpr hdT
      have hm0R : List.indexOf d ((keptView (padSel key)).map
          (fun i => perm.getD i 0)) <
          (((keptView (padSel key)).map (fun i => perm.getD i 0)).map
            (fun e => List.indexOf e ((List.range 5).filter (fun e2 =>
              ((padSel key).getD (List.indexOf e2 perm)
                Sel.all).isSlice)))).length := by
        rw [List.length_map]
        exact hm0
      have hRnodup : (((keptView (padSel key)).map (fun i => perm.getD i 0)).map
          (fun e => List.indexOf e ((List.range 5).filter (fun e2 =>
            ((padSel key).getD (List.indexOf e2 perm)
              Sel.all).isSlice)))).Nodup := by
        refine List.Nodup.map_on ?_ htDnodup
        intro x hx y hy hxy
        have hxy2 : List.indexOf x ((List.range 5).filter (fun e =>
            ((padSel key).getD (List.indexOf e perm) Sel.all).isSlice)) =
            List.indexOf y ((List.range 5).filter (fun e =>
              ((padSel key).getD (List.indexOf e perm)
                Sel.all).isSlice)) := hxy
        exact (List.indexOf_inj ((htDmemiff x).mp hx)
          ((htDmemiff y).mp hy)).mp hxy2
      have hgR : ((((keptView (padSel key)).map (fun i => perm.getD i 0)).map
          (fun e => List.indexOf e ((List.range 5).filter (fun e2 =>
            ((padSel key).getD (List.indexOf e2 perm)
              Sel.all).isSlice)))).get
            ⟨List.indexOf d ((keptView (padSel key)).map
              (fun i => perm.getD i 0)), hm0R⟩) =
          List.indexOf d ((List.range 5).filter (fun e =>
            ((padSel key).getD (List.indexOf e perm) Sel.all).isSlice)) := by
        rw [List.get_eq_getElem, List.getElem_map]
        show List.indexOf (((keptView (padSel key)).map
            (fun i => perm.getD i 0))[List.indexOf d
              ((keptView (padSel key)).map (fun i => perm.getD i 0))])
            ((List.range 5).filter (fun e =>
              ((padSel key).getD (List.indexOf e perm) Sel.all).isSlice)) =
          List.indexOf d ((List.range 5).filter (fun e =>
            ((padSel key).getD (List.indexOf e perm) Sel.all).isSlice))
        have hgd := List.indexOf_get hm0
        rw [List.get_eq_getElem] at hgd
        rw [hgd]
      have hA : List.indexOf (List.indexOf d ((List.range 5).filter (fun e =>
          ((padSel key).getD (List.indexOf e perm) Sel.all).isSlice)))
          (((keptView (padSel key)).map (fun i => perm.getD i 0)).map
            (fun e => List.indexOf e ((List.range 5).filter (fun e2 =>
              ((padSel key).getD (List.indexOf e2 perm)
                Sel.all).isSlice)))) =
          List.indexOf d ((keptView (padSel key)).map
            (fun i => perm.getD i 0)) := by
        have hgi := List.get_indexOf hRnodup
          ⟨List.indexOf d ((keptView (padSel key)).map
            (fun i => perm.getD i 0)), hm0R⟩
        rw [hgR] at hgi
        exact hgi
      rw [List.getD_eq_getElem _ _ (by
          rw [List.length_map, List.length_range, hshapeC, List.length_map]
          exact hq), List.getElem_map, List.getElem_range]
      show ix.getD (List.indexOf (List.indexOf d ((List.range 5).filter
          (fun e => ((padSel key).getD (List.indexOf e perm)
            Sel.all).isSlice)))
          (((keptView (padSel key)).map (fun i => perm.getD i 0)).map
            (fun e => List.indexOf e ((List.range 5).filter (fun e2 =>
              ((padSel key).getD (List.indexOf e2 perm)
                Sel.all).isSlice))))) 0 =
        ix.getD (List.indexOf d ((keptView (padSel key)).map
          (fun i => perm.getD i 0))) 0
      rw [hA]

/-- Witness for C3: the spec's own example, permutation `(0, 4, 2, 3, 1)`
over the concrete `(T, Z, C, Y, X)` buffer, with integer selectors on the
view's first two axes (the canonical T and X axes). -/
theorem c3_permuted_view_order_witness :
    (∃ res, TransposedProxy.getItem (Numpy5DProxy.getItem witnessArr)
        [0, 4, 2, 3, 1] ([Sel.idx 0, Sel.idx 1].map Sel.toKeyElem) = some res ∧
      res.shape.length = ((padSel [Sel.idx 0, Sel.idx 1]).filter
        Sel.isSlice).length ∧
      res.Equiv (transposedViewSpec witnessArr [0, 4, 2, 3, 1]
        (padSel [Sel.idx 0, Sel.idx 1]))) ∧
    (∃ tD, TransposedProxy.targetDims [0, 4, 2, 3, 1]
        (padKey ([Sel.idx 0, Sel.idx 1].map Sel.toKeyElem)) = some tD ∧
      (TransposedProxy.resPerm tD = List.range tD.length ↔
        List.Sorted (fun x y => x ≤ y) tD)) :=
  c3_permuted_view_order witnessArr (by decide) [0, 4, 2, 3, 1] (by decide)
    [Sel.idx 0, Sel.idx 1] (by decide) (by decide)
